import Mathlib

/-! # SMART string matching: Gamma Skip Search and TVSBS-W4

A shallow embedding of three algorithm files of the SMART tool,

* `source/algos/gammaskip.c` (Gamma Skip Search, C),
* `source/algos/gskip.cpp` (the same algorithm, C++),
* `source/algos/tvsbs-w4.c` (four-cursor TVSBS),

and theorems about them.

Conventions of the embedding.

* C `int` and `size_t` values are mathematical integers (`Int`); the inputs are
  far below the machine bounds, and the one place where the unsigned conversion
  decides the control flow (`GammaNode_get`) spells the conversion out.
* A buffer (`unsigned char *`) is a flat memory `Int → Nat`: the byte stored at
  every index, also before and after the `n` bytes of the text.  Nothing is
  assumed about the bytes outside the text unless a theorem says so.
* A `while` loop whose trip count is not syntactically bounded is a recursion on
  a fuel argument and returns `none` when the fuel is used up; theorems that
  say that the code returns a value prove `= some _`.
* An access outside an allocated child array of a trie node is undefined
  behaviour and is reported as `none`.
-/

/-- Flat byte memory addressed by a C pointer: the byte at every index. -/
abbrev Mem := Int → Nat

/-- The memory that holds the bytes of `l` from index `0` on, and `d` at every
other index. -/
def memOf (l : List Nat) (d : Nat) : Mem :=
  fun i => if 0 ≤ i then l.getD i.toNat d else d

/-- A counted loop `for (i = 0; i < k; ++i) s = body i s`. -/
def forLoop {σ : Type} : Nat → (Nat → σ → σ) → σ → σ
  | 0, _, s => s
  | k + 1, body, s => body k (forLoop k body s)

/-- Reference count of the claims: the number of offsets `s` in `[0, n - m]` with
`y[s + i] = x[i]` for all `0 ≤ i < m` (a naive scan). -/
def naiveCount (x : Mem) (m : Int) (y : Mem) (n : Int) : Nat :=
  ((List.range (n - m + 1).toNat).filter
    (fun s => (List.range m.toNat).all (fun i => y ((s : Int) + i) == x i))).length

namespace gammaskip

/-- The loop of `logarithm`: `while (tmp > base) { tmp /= base; ++result; }`. -/
def logarithmLoop : Nat → Int → Int → Int → Option Int
  | 0, tmp, base, result => if tmp > base then none else some result
  | fuel + 1, tmp, base, result =>
      if tmp > base then logarithmLoop fuel (Int.tdiv tmp base) base (result + 1)
      else some result

/-- `int logarithm(int a, int base)` of gammaskip.c. -/
def logarithm (a base : Int) : Option Int :=
  if base > 1 then logarithmLoop a.toNat a base 1 else some 1

/-- Conversion of an `int` to `size_t` (64 bit): reduction modulo `2 ^ 64`. -/
def toSizeT (c : Int) : Nat := (c % 2 ^ 64).toNat

/-- A byte read through a `char *` (signed char) and promoted to `int`. -/
def toChar (b : Nat) : Int := if b < 128 then (b : Int) else (b : Int) - 256

/-- `struct _GammaNode`.  `children` is the malloc'ed array of `arraySize`
child pointers (`none` is `NULL`), `firstPos` the linked list of positions in
list order, `arrayOffset` the bias `minChar` as a `size_t`. -/
inductive GammaNode where
  | mk (children : List (Option GammaNode)) (firstPos : List Int)
      (arraySize arrayOffset : Nat) : GammaNode

/-- Field `children`. -/
def GammaNode.children : GammaNode → List (Option GammaNode)
  | .mk c _ _ _ => c

/-- Field `firstPos`. -/
def GammaNode.firstPos : GammaNode → List Int
  | .mk _ p _ _ => p

/-- Field `arraySize`. -/
def GammaNode.arraySize : GammaNode → Nat
  | .mk _ _ s _ => s

/-- Field `arrayOffset`. -/
def GammaNode.arrayOffset : GammaNode → Nat
  | .mk _ _ _ o => o

/-- `GammaNode_init`: `arraySize = maxChar - minChar + 1`, `arrayOffset = minChar`
(both stored as `size_t`), every slot of the fresh array set to `NULL`, no
position.  (The filling loop reaches every slot when `0 ≤ minChar ≤ maxChar`.) -/
def GammaNode_init (minChar maxChar : Int) : GammaNode :=
  .mk (List.replicate (toSizeT (maxChar - minChar + 1)) none) []
    (toSizeT (maxChar - minChar + 1)) (toSizeT minChar)

/-- The slot of the malloc'ed array that the expression `node->children[c]`
addresses.  The stored pointer is the array base moved back by `arrayOffset`
elements, so the element offset from the base is `c - arrayOffset`, taken
modulo `2 ^ 61` (8-byte pointers in a 64-bit address space). -/
def GammaNode.slot (node : GammaNode) (c : Int) : Nat :=
  ((c - (node.arrayOffset : Int)) % 2 ^ 61).toNat

/-- `GammaNode_get(node, c)`:
`if (c >= node->arrayOffset) return node->children[c]; return NULL;`
The comparison is between `int` and `size_t`, hence unsigned.  The result is
`none` when `node->children[c]` lies outside the array (undefined behaviour),
`some none` for `NULL`, `some (some child)` for a child. -/
def GammaNode_get (node : GammaNode) (c : Int) : Option (Option GammaNode) :=
  if toSizeT c ≥ node.arrayOffset then node.children[node.slot c]? else some none

/-- The assignment `node->children[c] = child` (`GammaNode::set` in gskip.cpp);
`none` when the slot lies outside the array. -/
def GammaNode_set (node : GammaNode) (c : Int) (child : GammaNode) : Option GammaNode :=
  if node.slot c < node.children.length then
    some (.mk (node.children.set (node.slot c) (some child)) node.firstPos
      node.arraySize node.arrayOffset)
  else none

/-- `GammaNode_addPos(node, pos)`: append `pos` at the tail of the position list. -/
def GammaNode_addPos (node : GammaNode) (pos : Int) : GammaNode :=
  .mk node.children (node.firstPos ++ [pos]) node.arraySize node.arrayOffset

/-- The second inner loop of `GammaTrie_init` (`while (foundChars < l)`), seen
from the node it has just created at depth `d`: it creates `r` further levels
along `sub[d], sub[d+1], ...` and the deepest node receives position `k`
(there `child` is that node, so `GammaNode_addPos(child, k)` runs). -/
def GammaTrie_newChain (sub : Int → Int) (k minChar maxChar : Int) : Nat → Int → Option GammaNode
  | 0, _ => some (GammaNode_addPos (GammaNode_init minChar maxChar) k)
  | r + 1, d =>
      (GammaTrie_newChain sub k minChar maxChar r (d + 1)).bind
        (fun c => GammaNode_set (GammaNode_init minChar maxChar) (sub d) c)

/-- The body of the loop over `k` of `GammaTrie_init`, seen from `node` at depth
`d = foundChars` with `r = l - d` levels to go.  `child = GammaNode_get(node,
sub[d])` is always evaluated, also at depth `l`.  While `d < l` an existing
child is entered (first inner loop) and a missing one starts the second inner
loop.  At depth `l` the position goes to `node` if `child == NULL` and to
`child` otherwise. -/
def GammaTrie_insert (sub : Int → Int) (k minChar maxChar : Int) :
    Nat → Int → GammaNode → Option GammaNode
  | 0, d, node =>
      match GammaNode_get node (sub d) with
      | none => none
      | some none => some (GammaNode_addPos node k)
      | some (some child) => GammaNode_set node (sub d) (GammaNode_addPos child k)
  | r + 1, d, node =>
      match GammaNode_get node (sub d) with
      | none => none
      | some none =>
          (GammaTrie_newChain sub k minChar maxChar r (d + 1)).bind
            (fun c => GammaNode_set node (sub d) c)
      | some (some child) =>
          (GammaTrie_insert sub k minChar maxChar r (d + 1) child).bind
            (fun c => GammaNode_set node (sub d) c)

/-- `struct _GammaTrie`. -/
structure GammaTrie where
  root : GammaNode
  l : Int
  minChar : Int
  maxChar : Int

/-- `GammaTrie_init(trie, str, m, l, minChar, maxChar)`: for `k = 0 .. m - l` the
factor `sub = str + k` is inserted; `sub[i]` is read as a `char`. -/
def GammaTrie_init (str : Mem) (m l minChar maxChar : Int) : Option GammaTrie :=
  (forLoop (m - l + 1).toNat
    (fun k root => root.bind
      (GammaTrie_insert (fun i => toChar (str ((k : Int) + i))) k minChar maxChar l.toNat 0))
    (some (GammaNode_init minChar maxChar))).map
  (fun root => ⟨root, l, minChar, maxChar⟩)

/-- `strncmp(s1, s2, n)` of the C library from index `i` on, `n` bytes left:
bytes are compared as `unsigned char`, and the comparison stops with result `0`
after a null byte that both strings share. -/
def strncmp (s1 s2 : Mem) : Nat → Int → Int
  | 0, _ => 0
  | n + 1, i =>
      if s1 i ≠ s2 i then (s1 i : Int) - (s2 i : Int)
      else if s1 i = 0 then 0
      else strncmp s1 s2 n (i + 1)

/-- `struct _GammaMatcher`; `trie` is `none` before the preprocessing. -/
structure GammaMatcher where
  x : Mem
  y : Mem
  m : Int
  n : Int
  sigma : Int
  minChar : Int
  maxChar : Int
  l : Int
  occurrences : Int
  trie : Option GammaTrie

/-- `GammaMatcher_init`. -/
def GammaMatcher_init (sx sy : Mem) (m n minChar maxChar : Int) : GammaMatcher :=
  ⟨sx, sy, m, n, maxChar - minChar + 1, minChar, maxChar, 0, 0, none⟩

/-- `GammaMatcher_preprocessing`: `l = logarithm(m, sigma)` and the trie of the
length-`l` factors of `x`. -/
def GammaMatcher_preprocessing (matcher : GammaMatcher) : Option GammaMatcher :=
  (logarithm matcher.m matcher.sigma).bind (fun l =>
    (GammaTrie_init matcher.x matcher.m l matcher.minChar matcher.maxChar).map (fun trie =>
      ⟨matcher.x, matcher.y, matcher.m, matcher.n, matcher.sigma, matcher.minChar,
        matcher.maxChar, l, matcher.occurrences, some trie⟩))

/-- `GammaMatcher_attempt(matcher, start)`:
`strncmp(matcher->x, matcher->y + start, matcher->m) == 0`. -/
def GammaMatcher_attempt (matcher : GammaMatcher) (start : Int) : Bool :=
  strncmp matcher.x (fun i => matcher.y (start + i)) matcher.m.toNat 0 == 0

/-- The window offsets `j` visited by the loop of `GammaMatcher_search`
(`j = m - l` at entry, `while (j < limit) { ...; j += shift; }`; the body
changes neither `j` nor `limit` nor `shift`). -/
def windowOffsets : Nat → Int → Int → Int → Option (List Int)
  | 0, j, limit, _ => if j < limit then none else some []
  | fuel + 1, j, limit, shift =>
      if j < limit then (windowOffsets fuel (j + shift) limit shift).map (fun js => j :: js)
      else some []

/-- The walk `for (k = 0; k < l && node != NULL; ++k) node = GammaNode_get(node, ty[k]);`
with `r` iterations left. -/
def GammaMatcher_walk (ty : Int → Int) : Nat → Int → Option GammaNode → Option (Option GammaNode)
  | 0, _, node => some node
  | _ + 1, _, none => some none
  | r + 1, k, some node =>
      (GammaNode_get node (ty k)).bind (fun c => GammaMatcher_walk ty r (k + 1) c)

/-- The loop over the position list of the node reached by the walk: every
stored `pos` gives the candidate `start = j - pos`, counted if the attempt
succeeds.  The arguments are the attempt, `j`, the list and the counter. -/
def GammaMatcher_positions (attempt : Int → Bool) (j : Int) : List Int → Int → Int
  | [], occ => occ
  | pos :: rest, occ =>
      GammaMatcher_positions attempt j rest (if attempt (j - pos) then occ + 1 else occ)

/-- The body of the loop of `GammaMatcher_search` for the window at `j`, as a
function of the trie root, `l`, the text, the attempt and the counter. -/
def GammaMatcher_window (root : GammaNode) (l : Int) (y : Mem) (attempt : Int → Bool)
    (occ j : Int) : Option Int :=
  (GammaMatcher_walk (fun k => toChar (y (j + k))) l.toNat 0 (some root)).map (fun node =>
    match node with
    | none => occ
    | some nd => GammaMatcher_positions attempt j nd.firstPos occ)

/-- The loop of `GammaMatcher_search` over the window offsets `js`. -/
def GammaMatcher_windows (root : GammaNode) (l : Int) (y : Mem) (attempt : Int → Bool) :
    List Int → Int → Option Int
  | [], occ => some occ
  | j :: js, occ =>
      (GammaMatcher_window root l y attempt occ j).bind
        (GammaMatcher_windows root l y attempt js)

/-- `GammaMatcher_search(matcher)`: `j = m - l`, `limit = n - l + 1`,
`shift = m - l + 1`; the result is the final value of `matcher->occurrences`. -/
def GammaMatcher_search (matcher : GammaMatcher) : Option Int :=
  matcher.trie.bind (fun trie =>
    (windowOffsets (matcher.n - matcher.m + 1).toNat (matcher.m - matcher.l)
        (matcher.n - matcher.l + 1) (matcher.m - matcher.l + 1)).bind (fun js =>
      GammaMatcher_windows trie.root matcher.l matcher.y (GammaMatcher_attempt matcher)
        js matcher.occurrences))

/-- `ALPHABET_MIN_CHAR` of gammaskip.c. -/
def ALPHABET_MIN_CHAR : Int := 0

/-- `ALPHABET_MAX_CHAR` of gammaskip.c. -/
def ALPHABET_MAX_CHAR : Int := 1

/-- `search(x, m, y, n)` of gammaskip.c, compiled with `FIXED_ALPHABET`. -/
def search (x : Mem) (m : Int) (y : Mem) (n : Int) : Option Int :=
  (GammaMatcher_preprocessing
    (GammaMatcher_init x y m n ALPHABET_MIN_CHAR ALPHABET_MAX_CHAR)).bind GammaMatcher_search

/-- The `r` symbols `f d, f (d + 1), ..., f (d + r - 1)` of a symbol source. -/
def keyFrom (f : Int → Int) : Nat → Int → List Int
  | 0, _ => []
  | r + 1, d => f d :: keyFrom f r (d + 1)

/-- The factor of length `l` at offset `k` of `str`, as `GammaTrie_init` reads
it: `sub = str + k`, symbols `sub[0 .. l-1]` read as `char`. -/
def factorAt (str : Mem) (l : Nat) (k : Int) : List Int :=
  keyFrom (fun i => toChar (str (k + i))) l 0

/-- The node reached from `node` along the symbols of `p` by successive
`GammaNode_get`; `none` when a child is `NULL` or an access leaves the array. -/
def pathWalk : GammaNode → List Int → Option GammaNode
  | node, [] => some node
  | node, c :: cs =>
      match GammaNode_get node c with
      | some (some child) => pathWalk child cs
      | _ => none

/-- The position list of the node reached along `p`, empty when there is no
such node. -/
def posAt (node : GammaNode) (p : List Int) : List Int :=
  match pathWalk node p with
  | some nd => nd.firstPos
  | none => []

/-- A node as `GammaNode_init(node, minChar, maxChar)` lays it out: a child
array of `maxChar - minChar + 1` slots and the bias `minChar`. -/
def GammaNode.shaped (minChar maxChar : Int) (nd : GammaNode) : Prop :=
  nd.children.length = (maxChar - minChar + 1).toNat ∧ nd.arrayOffset = minChar.toNat

/-- The alphabets for which the layout of `GammaNode_init` is as described
there: `0 ≤ minChar ≤ maxChar`, both values of a `char`. -/
def validAlphabet (minChar maxChar : Int) : Prop :=
  0 ≤ minChar ∧ minChar ≤ maxChar ∧ maxChar ≤ 127

/-- Every symbol of `p` lies in `[minChar, maxChar]`. -/
def inRange (minChar maxChar : Int) (p : List Int) : Prop :=
  ∀ c ∈ p, minChar ≤ c ∧ c ≤ maxChar

/-- Every node reachable from `node` along symbols of the alphabet is laid out
for `[minChar, maxChar]`, and no such path is longer than `r`. -/
def GammaNode.wellFormed (minChar maxChar : Int) (node : GammaNode) (r : Nat) : Prop :=
  ∀ p nd, inRange minChar maxChar p → pathWalk node p = some nd →
    nd.shaped minChar maxChar ∧ p.length ≤ r

/-- The loop of `GammaTrie_init` run over the offsets in the order `ks` instead
of `0, 1, ..., m - l`: the same loop body for every offset, starting from the
same empty root. -/
def GammaTrie_initOrder (str : Mem) (l minChar maxChar : Int) (ks : List Nat) :
    Option GammaNode :=
  ks.foldl
    (fun root (k : Nat) => root.bind
      (GammaTrie_insert (fun i => toChar (str ((k : Int) + i))) k minChar maxChar l.toNat 0))
    (some (GammaNode_init minChar maxChar))

end gammaskip

namespace gskip

open gammaskip (GammaNode GammaTrie GammaTrie_init windowOffsets GammaMatcher_windows)

/-- `int log(int a, int base)` of gskip.cpp: the loop of `logarithm` without the
test `base > 1`. -/
def log (a base : Int) : Option Int := gammaskip.logarithmLoop a.toNat a base 1

/-- The loop `while (++c < m) if (x[c] != ty[c]) break;` of
`GammaSkipSearchMatcher::attempt`, entered with `r` bytes left and the value of
`c` after the increment; the result is the final `c`. -/
def attemptLoop (x ty : Mem) : Nat → Int → Int
  | 0, c => c
  | r + 1, c => if x c ≠ ty c then c else attemptLoop x ty r (c + 1)

/-- `GammaSkipSearchMatcher::attempt(start)`: `return c == m;` after the loop. -/
def attempt (x y : Mem) (m start : Int) : Bool :=
  attemptLoop x (fun i => y (start + i)) m.toNat 0 == m

/-- `GammaSkipSearchMatcher::search()` after `preprocessing()`, as run by
`execute()`: the loop is the one of `GammaMatcher_search` with `attempt` and
`report` (`++occurrences`).  `GammaNode`, `GammaNode::get`, `GammaNode::set`,
`GammaNode::addPos` and the constructor of `GammaTrie` repeat the C functions
of gammaskip.c statement by statement and are shared with them. -/
def execute (x : Mem) (m : Int) (y : Mem) (n minChar maxChar : Int) : Option Int :=
  (log m (maxChar - minChar + 1)).bind (fun l =>
    (GammaTrie_init x m l minChar maxChar).bind (fun trie =>
      (windowOffsets (n - m + 1).toNat (m - l) (n - l + 1) (m - l + 1)).bind (fun js =>
        GammaMatcher_windows trie.root l y (attempt x y m) js 0)))

/-- `search(x, m, y, n)` of gskip.cpp: the matcher is built with `minChar = 0`,
`maxChar = 1`. -/
def search (x : Mem) (m : Int) (y : Mem) (n : Int) : Option Int :=
  execute x m y n 0 1

end gskip

namespace tvsbs

/-- A table `int brBc[SIGMA][SIGMA]`, as the value of every cell. -/
abbrev Table := Nat → Nat → Int

/-- The assignment `brBc[a][b] = v`. -/
def setCell (t : Table) (a b : Nat) (v : Int) : Table :=
  fun a1 b1 => if a1 = a ∧ b1 = b then v else t a1 b1

/-- `TVSBSpreBrBc(x, m, brBc)`: the four loops in program order.  `SIGMA` is
the constant of `include/define.h`; `brBc` is the array as passed in. -/
def TVSBSpreBrBc (SIGMA : Nat) (x : Mem) (m : Int) (brBc : Table) : Table :=
  let t1 := forLoop SIGMA (fun a t => forLoop SIGMA (fun b t => setCell t a b (m + 2)) t) brBc
  let t2 := forLoop SIGMA (fun a t => setCell t a (x 0) (m + 1)) t1
  let t3 := forLoop (m - 1).toNat (fun i t => setCell t (x i) (x ((i : Int) + 1)) (m - i)) t2
  forLoop SIGMA (fun a t => setCell t (x (m - 1)) a 1) t3

/-- The assignment `y[i] = v`. -/
def store (y : Mem) (i : Int) (v : Nat) : Mem :=
  fun j => if j = i then v else y j

/-- The local variables of `search` that the main loop changes, and `accesses`,
the indices of `y` read or written so far, in program order. -/
structure Cursors where
  s1 : Int
  s2 : Int
  s3 : Int
  s4 : Int
  l1 : Int
  l2 : Int
  l3 : Int
  l4 : Int
  count : Int
  accesses : List Int

/-- What `search` leaves behind: the returned value, the text buffer, and the
indices of the text buffer it read or wrote, in program order. -/
structure Result where
  ret : Int
  y : Mem
  accesses : List Int

/-- A chain `c == y[i1] || c == y[i2] || ...` evaluated left to right with
short circuit: its value and the indices read. -/
def anyEq (c : Nat) (y : Mem) : List Int → Bool × List Int
  | [] => (false, [])
  | i :: is =>
      if c = y i then (true, [i])
      else ((anyEq c y is).1, i :: (anyEq c y is).2)

/-- The test `!memcmp(x, y + s, m)`: all `m` bytes equal. -/
def memcmpEq (x y : Mem) (s m : Int) : Bool :=
  (List.range m.toNat).all (fun i => x i == y (s + i))

/-- The indices `s, ..., s + m - 1` of `y` that `memcmp(x, y + s, m)` compares. -/
def memcmpReads (s m : Int) : List Int :=
  (List.range m.toNat).map (fun i => s + (i : Int))

/-- One verification `if (s < l && !memcmp(x, y + s, m)) { own = s; count++; }`
(for the descending cursors the guard is `s > l`): `guard` is the value of the
first conjunct; the result is the new `own`, the new `count` and the indices
read. -/
def verify (x y : Mem) (m : Int) (guard : Bool) (s own count : Int) : Int × Int × List Int :=
  if guard then
    if memcmpEq x y s m then (s, count + 1, memcmpReads s m)
    else (own, count, memcmpReads s m)
  else (own, count, [])

/-- The four verifications of the gated branch, in program order; each sees
the `l1 .. l4` left by the ones before it. -/
def verifyAll (x y : Mem) (m : Int) (c : Cursors) : Cursors :=
  let v1 := verify x y m (decide (c.s1 < c.l2)) c.s1 c.l1 c.count
  let v2 := verify x y m (decide (c.s2 > v1.1)) c.s2 c.l2 v1.2.1
  let v3 := verify x y m (decide (c.s3 < c.l4)) c.s3 c.l3 v2.2.1
  let v4 := verify x y m (decide (c.s4 > v3.1)) c.s4 c.l4 v3.2.1
  ⟨c.s1, c.s2, c.s3, c.s4, v1.1, v2.1, v3.1, v4.1, v4.2.1,
    c.accesses ++ v1.2.2 ++ v2.2.2 ++ v3.2.2 ++ v4.2.2⟩

/-- The two nested `if`s of the loop body: the gate on the first byte, the gate
on the last byte, then the verifications. -/
def gate (x y : Mem) (m : Int) (c : Cursors) : Cursors :=
  let g1 := anyEq (x 0) y [c.s1, c.s2, c.s3, c.s4]
  let c1 : Cursors := ⟨c.s1, c.s2, c.s3, c.s4, c.l1, c.l2, c.l3, c.l4, c.count,
    c.accesses ++ g1.2⟩
  if g1.1 then
    let g2 := anyEq (x (m - 1)) y [c.s1 + (m - 1), c.s2 + (m - 1), c.s3 + (m - 1), c.s4 + (m - 1)]
    let c2 : Cursors := ⟨c.s1, c.s2, c.s3, c.s4, c.l1, c.l2, c.l3, c.l4, c.count,
      c1.accesses ++ g2.2⟩
    if g2.1 then verifyAll x y m c2 else c2
  else c1

/-- The four shifts that end the loop body. -/
def shift (BrBcR BrBcL : Table) (y : Mem) (m : Int) (c : Cursors) : Cursors :=
  ⟨c.s1 + BrBcR (y (c.s1 + m)) (y (c.s1 + (m + 1))),
   c.s2 - BrBcL (y (c.s2 - 1)) (y (c.s2 - 2)),
   c.s3 + BrBcR (y (c.s3 + m)) (y (c.s3 + (m + 1))),
   c.s4 - BrBcL (y (c.s4 - 1)) (y (c.s4 - 2)),
   c.l1, c.l2, c.l3, c.l4, c.count,
   c.accesses ++ [c.s1 + m, c.s1 + (m + 1), c.s2 - 1, c.s2 - 2,
                  c.s3 + m, c.s3 + (m + 1), c.s4 - 1, c.s4 - 2]⟩

/-- One iteration of the main loop. -/
def step (BrBcR BrBcL : Table) (x y : Mem) (m : Int) (c : Cursors) : Cursors :=
  shift BrBcR BrBcL y m (gate x y m c)

/-- The main loop `while (s1 <= s2 || s3 <= s4) { ... }`. -/
def mainLoop (BrBcR BrBcL : Table) (x y : Mem) (m : Int) : Nat → Cursors → Option Cursors
  | 0, c => if c.s1 ≤ c.s2 ∨ c.s3 ≤ c.s4 then none else some c
  | fuel + 1, c =>
      if c.s1 ≤ c.s2 ∨ c.s3 ≤ c.s4 then mainLoop BrBcR BrBcL x y m fuel (step BrBcR BrBcL x y m c)
      else some c

/-- The reversed pattern `xr`: `for (i = 0; i < m; i++) xr[i] = x[m-1-i]; xr[m] = 0`. -/
def reversed (x : Mem) (m : Int) : Mem :=
  store (forLoop m.toNat (fun i xr => store xr i (x (m - 1 - i))) (fun _ => 0)) m 0

/-- The sentinel loop `for (i = 0; i < m; i++) y[n+i] = y[n+m+i] = x[i];`. -/
def sentinels (x : Mem) (m : Int) (y : Mem) (n : Int) : Mem :=
  forLoop m.toNat (fun i y1 => store (store y1 (n + m + i) (x i)) (n + i) (x i)) y

/-- The indices written by the sentinel loop, in program order. -/
def sentinelWrites (m n : Int) : List Int :=
  forLoop m.toNat (fun i acc => acc ++ [n + m + (i : Int), n + (i : Int)]) []

/-- `search(x, m, y, n)` of tvsbs-w4.c.  The two early returns come first; the
arrays `BrBcR`, `BrBcL` and `xr` start from arbitrary stack contents, taken as
`0` (every cell the code reads is written before, as long as the bytes are
below `SIGMA`). -/
def search (SIGMA : Nat) (x : Mem) (m : Int) (y : Mem) (n : Int) : Option Result :=
  if n < m + 2 then some ⟨-1, y, []⟩
  else if m < 2 then some ⟨-1, y, []⟩
  else
    let xr := reversed x m
    let BrBcR := TVSBSpreBrBc SIGMA x m (fun _ _ => 0)
    let BrBcL := TVSBSpreBrBc SIGMA xr m (fun _ _ => 0)
    let y1 := sentinels x m y n
    let q := Int.tdiv n 2
    let s2 := if q - 1 > n - m then n - m else q - 1
    (mainLoop BrBcR BrBcL x y1 m n.toNat
        ⟨0, s2, q, n - m, 0, s2, q, n - m, 0, sentinelWrites m n⟩).map
      (fun c => ⟨c.count, store y1 n 0, c.accesses ++ [n]⟩)

/-- The position that one verification
`if (guard && !memcmp(x, y + s, m)) { own = s; count++; }` counts, if any. -/
def verifyHit (x y : Mem) (m : Int) (guard : Bool) (s : Int) : List Int :=
  if guard then (if memcmpEq x y s m then [s] else []) else []

/-- The cursor positions at which the four verifications of the gated branch
increment `count`, in program order (the guards are those of `verifyAll`). -/
def verifyAllHits (x y : Mem) (m : Int) (c : Cursors) : List Int :=
  let v1 := verify x y m (decide (c.s1 < c.l2)) c.s1 c.l1 c.count
  let v2 := verify x y m (decide (c.s2 > v1.1)) c.s2 c.l2 v1.2.1
  let v3 := verify x y m (decide (c.s3 < c.l4)) c.s3 c.l3 v2.2.1
  verifyHit x y m (decide (c.s1 < c.l2)) c.s1 ++ verifyHit x y m (decide (c.s2 > v1.1)) c.s2 ++
    verifyHit x y m (decide (c.s3 < c.l4)) c.s3 ++ verifyHit x y m (decide (c.s4 > v3.1)) c.s4

/-- The cursor positions at which one loop body increments `count`: those of
the verifications when both gates are open, none otherwise. -/
def gateHits (x y : Mem) (m : Int) (c : Cursors) : List Int :=
  if (anyEq (x 0) y [c.s1, c.s2, c.s3, c.s4]).1 then
    if (anyEq (x (m - 1)) y
        [c.s1 + (m - 1), c.s2 + (m - 1), c.s3 + (m - 1), c.s4 + (m - 1)]).1 then
      verifyAllHits x y m c
    else []
  else []

/-- The cursor positions at which the main loop increments `count`, over the
whole run, in program order; the recursion is the one of `mainLoop`. -/
def mainLoopHits (BrBcR BrBcL : Table) (x y : Mem) (m : Int) : Nat → Cursors → Option (List Int)
  | 0, c => if c.s1 ≤ c.s2 ∨ c.s3 ≤ c.s4 then none else some []
  | fuel + 1, c =>
      if c.s1 ≤ c.s2 ∨ c.s3 ≤ c.s4 then
        (mainLoopHits BrBcR BrBcL x y m fuel (step BrBcR BrBcL x y m c)).map
          (fun hs => gateHits x y m c ++ hs)
      else some []

/-- The cursor positions at which `search` increments `count`; the set-up is
the one of `search`. -/
def searchHits (SIGMA : Nat) (x : Mem) (m : Int) (y : Mem) (n : Int) : Option (List Int) :=
  if n < m + 2 then some []
  else if m < 2 then some []
  else
    let xr := reversed x m
    let BrBcR := TVSBSpreBrBc SIGMA x m (fun _ _ => 0)
    let BrBcL := TVSBSpreBrBc SIGMA xr m (fun _ _ => 0)
    let y1 := sentinels x m y n
    let q := Int.tdiv n 2
    let s2 := if q - 1 > n - m then n - m else q - 1
    mainLoopHits BrBcR BrBcL x y1 m n.toNat
      ⟨0, s2, q, n - m, 0, s2, q, n - m, 0, sentinelWrites m n⟩

/-- The bounds that the markers `l1 .. l4` keep at the head of the main loop:
`q` is the midpoint `n / 2`, `B` the start of cursor 2 and `E = n - m`. -/
def laneInv (q B E : Int) (c : Cursors) : Prop :=
  0 ≤ c.l1 ∧ c.l1 ≤ c.s1 ∧ c.s2 ≤ c.l2 ∧ c.l2 ≤ B ∧
  q ≤ c.l3 ∧ c.l3 ≤ c.s3 ∧ c.s4 ≤ c.l4 ∧ c.l4 ≤ E

/-- Where a position counted earlier lies at the head of the main loop: behind
cursor 1 and not after `l1`, or behind cursor 2 and not before `l2` (both below
the midpoint), or the same for cursors 3 and 4 from the midpoint on. -/
def hitPlace (q : Int) (c : Cursors) (p : Int) : Prop :=
  (p ≤ c.l1 ∧ p < c.s1 ∧ p < q) ∨ (c.l2 ≤ p ∧ c.s2 < p ∧ p < q) ∨
  (q ≤ p ∧ p ≤ c.l3 ∧ p < c.s3) ∨ (q ≤ p ∧ c.l4 ≤ p ∧ c.s4 < p)

end tvsbs

/-! ## Theorems -/

/-- A property that holds at entry and that every iteration keeps holds after a
counted loop. -/
theorem forLoop_invariant {σ : Type} (P : σ → Prop) (body : Nat → σ → σ) (k : Nat) (s : σ)
    (h0 : P s) (hstep : ∀ i t, i < k → P t → P (body i t)) : P (forLoop k body s) := by
  induction k with
  | zero => exact h0
  | succ k ih =>
    exact hstep k _ (Nat.lt_succ_self k) (ih (fun i t hi ht => hstep i t (Nat.lt_succ_of_lt hi) ht))

/-- The bytes of `memOf l d` are below `S` when `d` and the elements of `l` are. -/
theorem memOf_lt (l : List Nat) (d S : Nat) (hd : d < S) (hl : ∀ b ∈ l, b < S) :
    ∀ i, memOf l d i < S := by
  intro i
  unfold memOf
  split_ifs
  · rw [List.getD_eq_getElem?_getD]
    cases h : l[i.toNat]? with
    | none => simpa using hd
    | some b => simpa using hl b (List.getElem?_mem h)
  · exact hd

namespace gammaskip

theorem logarithmLoop_bounds (fuel : Nat) :
    ∀ (tmp base result : Int), 2 ≤ base → 1 ≤ tmp → tmp ≤ fuel →
      ∃ r, logarithmLoop fuel tmp base result = some r ∧ result ≤ r ∧ r ≤ result + tmp - 1 := by
  induction fuel with
  | zero => intro tmp base result _ h1 h2; omega
  | succ f ih =>
    intro tmp base result hb h1 h2
    unfold logarithmLoop
    by_cases hgt : tmp > base
    · rw [if_pos hgt]
      have hq : Int.tdiv tmp base = tmp / base :=
        Int.tdiv_eq_ediv (by omega) (by omega)
      rw [hq]
      have hlo : 1 ≤ tmp / base := Int.le_ediv_of_mul_le (by omega) (by omega)
      have hhi : tmp / base < tmp :=
        Int.ediv_lt_of_lt_mul (by omega) (by nlinarith)
      obtain ⟨r, hr, h3, h4⟩ := ih (tmp / base) base (result + 1) hb hlo (by push_cast at h2; omega)
      exact ⟨r, hr, by omega, by omega⟩
    · rw [if_neg hgt]
      exact ⟨result, rfl, le_refl _, by omega⟩

theorem windowOffsets_spec (fuel : Nat) :
    ∀ (j limit shift : Int), 1 ≤ shift → limit - j ≤ fuel →
      ∃ js, windowOffsets fuel j limit shift = some js ∧
        ∀ z, z ∈ js ↔ ∃ t : Nat, z = j + t * shift ∧ z < limit := by
  induction fuel with
  | zero =>
    intro j limit shift hs hf
    refine ⟨[], ?_, ?_⟩
    · unfold windowOffsets
      rw [if_neg (by push_cast at hf; omega)]
    · intro z
      constructor
      · intro h; cases h
      · rintro ⟨t, rfl, hz⟩
        have : 0 ≤ (t : Int) * shift := by positivity
        push_cast at hf; omega
  | succ f ih =>
    intro j limit shift hs hf
    unfold windowOffsets
    by_cases hj : j < limit
    · rw [if_pos hj]
      obtain ⟨js, hjs, hmem⟩ := ih (j + shift) limit shift hs (by push_cast at hf; omega)
      refine ⟨j :: js, by rw [hjs]; rfl, ?_⟩
      intro z
      rw [List.mem_cons, hmem]
      constructor
      · rintro (rfl | ⟨t, rfl, hz⟩)
        · exact ⟨0, by simp, hj⟩
        · exact ⟨t + 1, by push_cast; ring, hz⟩
      · rintro ⟨t, rfl, hz⟩
        cases t with
        | zero => left; simp
        | succ t => right; exact ⟨t, by push_cast; ring, hz⟩
    · rw [if_neg hj]
      refine ⟨[], rfl, ?_⟩
      intro z
      constructor
      · intro h; cases h
      · rintro ⟨t, rfl, hz⟩
        have : 0 ≤ (t : Int) * shift := by positivity
        omega

/-- The loop of `logarithm` ends within `m` tests and leaves a value in `[1, m]`. -/
theorem logarithm_returns (m sigma : Int) (hm : 1 ≤ m) :
    ∃ l, logarithm m sigma = some l ∧ 1 ≤ l ∧ l ≤ m := by
  unfold logarithm
  by_cases hb : sigma > 1
  · rw [if_pos hb]
    obtain ⟨r, hr, h1, h2⟩ :=
      logarithmLoop_bounds m.toNat m sigma 1 (by omega) hm (by omega)
    exact ⟨r, hr, h1, by omega⟩
  · rw [if_neg hb]
    exact ⟨1, rfl, le_refl _, hm⟩

/-- Claim C9: for every pattern length `m ≥ 1` and every alphabet size `sigma`
(also `sigma ≤ 1`, where the result is `1`), `logarithm(m, sigma)` returns a
factor length `l` with `1 ≤ l ≤ m`; this `l` is the one that
`GammaMatcher_preprocessing` stores. -/
theorem logarithm_range (m sigma : Int) (hm : 1 ≤ m) :
    ∃ l, logarithm m sigma = some l ∧ 1 ≤ l ∧ l ≤ m ∧ (sigma ≤ 1 → l = 1) := by
  obtain ⟨l, hl, h1, h2⟩ := logarithm_returns m sigma hm
  refine ⟨l, hl, h1, h2, ?_⟩
  intro hs
  unfold logarithm at hl
  rw [if_neg (by omega)] at hl
  exact (Option.some.inj hl).symm

theorem logarithm_range_witness :
    (1 : Int) ≤ 5 ∧
    ∃ l, logarithm 5 2 = some l ∧ 1 ≤ l ∧ l ≤ 5 ∧ ((2 : Int) ≤ 1 → l = 1) :=
  ⟨by decide, logarithm_range 5 2 (by decide)⟩

/-- Claim C8 (stride coverage): with `l = logarithm(m, sigma)`, `m ≥ 1`, `n ≥ m`
and a start `s` in `[0, n - m]`, the window offsets visited by the loop of
`GammaMatcher_search` are exactly the `j = (m - l) + t * (m - l + 1)`, `t ≥ 0`,
with `j ≤ n - l`, and one of them satisfies `s ≤ j` and `j + l ≤ s + m`. -/
theorem stride_coverage (sigma m n s : Int) (hm : 1 ≤ m) (hn : m ≤ n)
    (hs0 : 0 ≤ s) (hs : s ≤ n - m) :
    ∃ l js, logarithm m sigma = some l ∧
      windowOffsets (n - m + 1).toNat (m - l) (n - l + 1) (m - l + 1) = some js ∧
      (∀ z, z ∈ js ↔ ∃ t : Nat, z = (m - l) + t * (m - l + 1) ∧ z ≤ n - l) ∧
      ∃ j ∈ js, s ≤ j ∧ j + l ≤ s + m := by
  obtain ⟨l, hl, hl1, hl2⟩ := logarithm_returns m sigma hm
  obtain ⟨js, hjs, hmem⟩ :=
    windowOffsets_spec (n - m + 1).toNat (m - l) (n - l + 1) (m - l + 1) (by omega) (by omega)
  refine ⟨l, js, hl, hjs, ?_, ?_⟩
  · intro z
    rw [hmem]
    constructor
    · rintro ⟨t, h1, h2⟩; exact ⟨t, h1, by omega⟩
    · rintro ⟨t, h1, h2⟩; exact ⟨t, h1, by omega⟩
  · have hd : 0 < m - l + 1 := by omega
    have h1 := Int.ediv_add_emod s (m - l + 1)
    have h2 := Int.emod_nonneg s (ne_of_gt hd)
    have h3 := Int.emod_lt_of_pos s hd
    have h4 : 0 ≤ s / (m - l + 1) := Int.ediv_nonneg hs0 (le_of_lt hd)
    have h5 : ((s / (m - l + 1)).toNat : Int) * (m - l + 1) = (m - l + 1) * (s / (m - l + 1)) := by
      rw [Int.toNat_of_nonneg h4]; ring
    refine ⟨(m - l) + ((s / (m - l + 1)).toNat : Int) * (m - l + 1), ?_, ?_, ?_⟩
    · rw [hmem]
      exact ⟨(s / (m - l + 1)).toNat, rfl, by rw [h5]; omega⟩
    · rw [h5]; omega
    · rw [h5]; omega

theorem stride_coverage_witness :
    ((1 : Int) ≤ 5 ∧ (5 : Int) ≤ 12 ∧ (0 : Int) ≤ 2 ∧ (2 : Int) ≤ 12 - 5) ∧
    ∃ l js, logarithm 5 2 = some l ∧
      windowOffsets ((12 : Int) - 5 + 1).toNat (5 - l) (12 - l + 1) (5 - l + 1) = some js ∧
      (∀ z, z ∈ js ↔ ∃ t : Nat, z = (5 - l) + t * (5 - l + 1) ∧ z ≤ 12 - l) ∧
      ∃ j ∈ js, (2 : Int) ≤ j ∧ j + l ≤ 2 + 5 :=
  ⟨by decide, stride_coverage 2 5 12 2 (by decide) (by decide) (by decide) (by decide)⟩

end gammaskip

namespace tvsbs

theorem rowFill_apply (a : Nat) (v : Int) (k : Nat) (t : Table) (a1 b1 : Nat) :
    forLoop k (fun b t => setCell t a b v) t a1 b1 = if a1 = a ∧ b1 < k then v else t a1 b1 := by
  induction k with
  | zero => simp [forLoop]
  | succ k ih =>
    simp only [forLoop, setCell, ih]
    by_cases h1 : a1 = a <;> by_cases h2 : b1 = k <;> by_cases h3 : b1 < k <;>
      simp [h1, h2, h3] <;> omega

theorem colFill_apply (b : Nat) (v : Int) (k : Nat) (t : Table) (a1 b1 : Nat) :
    forLoop k (fun a t => setCell t a b v) t a1 b1 = if a1 < k ∧ b1 = b then v else t a1 b1 := by
  induction k with
  | zero => simp [forLoop]
  | succ k ih =>
    simp only [forLoop, setCell, ih]
    by_cases h1 : b1 = b <;> by_cases h2 : a1 = k <;> by_cases h3 : a1 < k <;>
      simp [h1, h2, h3] <;> omega

theorem initFill_apply (S : Nat) (v : Int) (k : Nat) (t : Table) (a1 b1 : Nat) :
    forLoop k (fun a t => forLoop S (fun b t => setCell t a b v) t) t a1 b1 =
      if a1 < k ∧ b1 < S then v else t a1 b1 := by
  induction k with
  | zero => simp [forLoop]
  | succ k ih =>
    simp only [forLoop, rowFill_apply, ih]
    by_cases h1 : a1 = k <;> by_cases h2 : a1 < k <;> by_cases h3 : b1 < S <;>
      simp [h1, h2, h3] <;> omega

/-- Every cell of a table filled by `TVSBSpreBrBc` for `m ≥ 2` holds a value
in `[1, m + 2]`, whatever the bytes of `x` are. -/
theorem TVSBSpreBrBc_cell_range (SIGMA : Nat) (x : Mem) (m : Int) (t0 : Table) (hm : 2 ≤ m)
    (a b : Nat) (ha : a < SIGMA) (hb : b < SIGMA) :
    1 ≤ TVSBSpreBrBc SIGMA x m t0 a b ∧ TVSBSpreBrBc SIGMA x m t0 a b ≤ m + 2 := by
  have key : ∀ a b, a < SIGMA → b < SIGMA →
      1 ≤ TVSBSpreBrBc SIGMA x m t0 a b ∧ TVSBSpreBrBc SIGMA x m t0 a b ≤ m + 2 := by
    unfold TVSBSpreBrBc
    apply forLoop_invariant
      (fun t : Table => ∀ a b, a < SIGMA → b < SIGMA → 1 ≤ t a b ∧ t a b ≤ m + 2)
    · apply forLoop_invariant
        (fun t : Table => ∀ a b, a < SIGMA → b < SIGMA → 1 ≤ t a b ∧ t a b ≤ m + 2)
      · apply forLoop_invariant
          (fun t : Table => ∀ a b, a < SIGMA → b < SIGMA → 1 ≤ t a b ∧ t a b ≤ m + 2)
        · intro a b ha hb
          rw [initFill_apply, if_pos ⟨ha, hb⟩]
          omega
        · intro i t _ ht a b ha hb
          unfold setCell
          split
          · omega
          · exact ht a b ha hb
      · intro i t hi ht a b ha hb
        unfold setCell
        split
        · have : (i : Int) < m - 1 := by omega
          omega
        · exact ht a b ha hb
    · intro i t _ ht a b ha hb
      unfold setCell
      split
      · omega
      · exact ht a b ha hb
  exact key a b ha hb

/-- Claim C10: for every pattern `x` of length `m ≥ 2`, every cell of the
table filled by `TVSBSpreBrBc(x, m, .)` holds a value in `[1, m + 2]`, for the
forward table (built from `x`) and for the backward table (built from the
reverse of `x`, as `search` does). -/
theorem TVSBSpreBrBc_shift_range (SIGMA : Nat) (x : Mem) (m : Int) (t0 : Table) (hm : 2 ≤ m)
    (a b : Nat) (ha : a < SIGMA) (hb : b < SIGMA) :
    (1 ≤ TVSBSpreBrBc SIGMA x m t0 a b ∧ TVSBSpreBrBc SIGMA x m t0 a b ≤ m + 2) ∧
    (1 ≤ TVSBSpreBrBc SIGMA (reversed x m) m t0 a b ∧
      TVSBSpreBrBc SIGMA (reversed x m) m t0 a b ≤ m + 2) :=
  ⟨TVSBSpreBrBc_cell_range SIGMA x m t0 hm a b ha hb,
   TVSBSpreBrBc_cell_range SIGMA (reversed x m) m t0 hm a b ha hb⟩

theorem TVSBSpreBrBc_shift_range_witness :
    ((2 : Int) ≤ 3 ∧ 1 < 2 ∧ 0 < 2) ∧
    (1 ≤ TVSBSpreBrBc 2 (memOf [0, 1, 1] 0) 3 (fun _ _ => 0) 1 0 ∧
      TVSBSpreBrBc 2 (memOf [0, 1, 1] 0) 3 (fun _ _ => 0) 1 0 ≤ 3 + 2) ∧
    (1 ≤ TVSBSpreBrBc 2 (reversed (memOf [0, 1, 1] 0) 3) 3 (fun _ _ => 0) 1 0 ∧
      TVSBSpreBrBc 2 (reversed (memOf [0, 1, 1] 0) 3) 3 (fun _ _ => 0) 1 0 ≤ 3 + 2) :=
  ⟨by decide,
   TVSBSpreBrBc_shift_range 2 (memOf [0, 1, 1] 0) 3 (fun _ _ => 0) (by decide) 1 0
     (by decide) (by decide)⟩

theorem verify_count (x y : Mem) (m : Int) (guard : Bool) (s own count : Int) :
    count ≤ (verify x y m guard s own count).2.1 := by
  unfold verify
  split_ifs <;> simp

theorem verifyAll_count (x y : Mem) (m : Int) (c : Cursors) :
    c.count ≤ (verifyAll x y m c).count := by
  simp only [verifyAll]
  exact le_trans (le_trans (le_trans (verify_count _ _ _ _ _ _ _) (verify_count _ _ _ _ _ _ _))
    (verify_count _ _ _ _ _ _ _)) (verify_count _ _ _ _ _ _ _)

theorem gate_cursors (x y : Mem) (m : Int) (c : Cursors) :
    (gate x y m c).s1 = c.s1 ∧ (gate x y m c).s2 = c.s2 ∧ (gate x y m c).s3 = c.s3 ∧
    (gate x y m c).s4 = c.s4 ∧ c.count ≤ (gate x y m c).count := by
  unfold gate
  simp only
  split_ifs
  · exact ⟨rfl, rfl, rfl, rfl, verifyAll_count x y m _⟩
  · exact ⟨rfl, rfl, rfl, rfl, le_refl _⟩
  · exact ⟨rfl, rfl, rfl, rfl, le_refl _⟩

theorem step_cursors (BrBcR BrBcL : Table) (x y : Mem) (m : Int) (c : Cursors) :
    (step BrBcR BrBcL x y m c).s1 = c.s1 + BrBcR (y (c.s1 + m)) (y (c.s1 + (m + 1))) ∧
    (step BrBcR BrBcL x y m c).s2 = c.s2 - BrBcL (y (c.s2 - 1)) (y (c.s2 - 2)) ∧
    (step BrBcR BrBcL x y m c).s3 = c.s3 + BrBcR (y (c.s3 + m)) (y (c.s3 + (m + 1))) ∧
    (step BrBcR BrBcL x y m c).s4 = c.s4 - BrBcL (y (c.s4 - 1)) (y (c.s4 - 2)) ∧
    c.count ≤ (step BrBcR BrBcL x y m c).count := by
  obtain ⟨h1, h2, h3, h4, h5⟩ := gate_cursors x y m c
  simp only [step, shift, h1, h2, h3, h4, true_and]
  exact h5

/-- The main loop returns when every shift it reads from the tables is at
least `1`: `fuel` iterations are enough once both cursor gaps are below `fuel`. -/
theorem mainLoop_returns (BrBcR BrBcL : Table) (x y : Mem) (m : Int)
    (hR : ∀ i j, 1 ≤ BrBcR (y i) (y j)) (hL : ∀ i j, 1 ≤ BrBcL (y i) (y j)) (fuel : Nat) :
    ∀ c : Cursors, c.s2 - c.s1 < fuel → c.s4 - c.s3 < fuel →
      ∃ c1, mainLoop BrBcR BrBcL x y m fuel c = some c1 ∧ c.count ≤ c1.count := by
  induction fuel with
  | zero =>
    intro c h1 h2
    refine ⟨c, ?_, le_refl _⟩
    unfold mainLoop
    rw [if_neg (by push_cast at h1 h2; omega)]
  | succ f ih =>
    intro c h1 h2
    unfold mainLoop
    by_cases hc : c.s1 ≤ c.s2 ∨ c.s3 ≤ c.s4
    · rw [if_pos hc]
      obtain ⟨e1, e2, e3, e4, e5⟩ := step_cursors BrBcR BrBcL x y m c
      have r1 := hR (c.s1 + m) (c.s1 + (m + 1))
      have r3 := hR (c.s3 + m) (c.s3 + (m + 1))
      have r2 := hL (c.s2 - 1) (c.s2 - 2)
      have r4 := hL (c.s4 - 1) (c.s4 - 2)
      obtain ⟨c1, hc1, hcount⟩ := ih (step BrBcR BrBcL x y m c)
        (by rw [e1, e2]; push_cast at h1; omega) (by rw [e3, e4]; push_cast at h2; omega)
      exact ⟨c1, hc1, le_trans e5 hcount⟩
    · rw [if_neg hc]
      exact ⟨c, rfl, le_refl _⟩

theorem sentinels_bytes (SIGMA : Nat) (x : Mem) (m : Int) (y : Mem) (n : Int)
    (hx : ∀ i, x i < SIGMA) (hy : ∀ i, y i < SIGMA) : ∀ i, sentinels x m y n i < SIGMA := by
  unfold sentinels
  apply forLoop_invariant (fun y1 : Mem => ∀ i, y1 i < SIGMA)
  · exact hy
  · intro k t _ ht i
    unfold store
    split_ifs
    · exact hx _
    · exact hx _
    · exact ht i

/-- Claim C4: `search` of tvsbs-w4.c returns, and the value is `-1` if and only
if `m < 2` or `n < m + 2`; for every other input it is a count `≥ 0`; and when
`-1` is returned the text buffer has not been written (nor read).  The bytes of
both buffers are symbols below `SIGMA`. -/
theorem search_sentinel_iff (SIGMA : Nat) (x y : Mem) (m n : Int)
    (hx : ∀ i, x i < SIGMA) (hy : ∀ i, y i < SIGMA) :
    ∃ r, search SIGMA x m y n = some r ∧
      (r.ret = -1 ↔ (m < 2 ∨ n < m + 2)) ∧
      (¬ (m < 2 ∨ n < m + 2) → 0 ≤ r.ret) ∧
      (r.ret = -1 → r.y = y ∧ r.accesses = []) := by
  unfold search
  by_cases h1 : n < m + 2
  · rw [if_pos h1]
    exact ⟨_, rfl, by simp [h1], by simp [h1], fun _ => ⟨rfl, rfl⟩⟩
  · rw [if_neg h1]
    by_cases h2 : m < 2
    · rw [if_pos h2]
      exact ⟨_, rfl, by simp [h2], by simp [h2], fun _ => ⟨rfl, rfl⟩⟩
    · rw [if_neg h2]
      have hm : 2 ≤ m := by omega
      have hb := sentinels_bytes SIGMA x m y n hx hy
      have hq : Int.tdiv n 2 = n / 2 := Int.tdiv_eq_ediv (by omega) (by omega)
      obtain ⟨c1, hc1, hcount⟩ := mainLoop_returns
        (TVSBSpreBrBc SIGMA x m (fun _ _ => 0))
        (TVSBSpreBrBc SIGMA (reversed x m) m (fun _ _ => 0)) x (sentinels x m y n) m
        (fun i j => (TVSBSpreBrBc_cell_range SIGMA x m _ hm _ _ (hb i) (hb j)).1)
        (fun i j => (TVSBSpreBrBc_cell_range SIGMA (reversed x m) m _ hm _ _ (hb i) (hb j)).1)
        n.toNat
        ⟨0, if Int.tdiv n 2 - 1 > n - m then n - m else Int.tdiv n 2 - 1, Int.tdiv n 2, n - m,
          0, if Int.tdiv n 2 - 1 > n - m then n - m else Int.tdiv n 2 - 1, Int.tdiv n 2, n - m,
          0, sentinelWrites m n⟩
        (by simp only [hq]; split_ifs <;> omega) (by simp only [hq]; omega)
      simp only [hc1, Option.map_some']
      have h0 : (0 : Int) ≤ c1.count := hcount
      refine ⟨_, rfl, ?_, ?_, ?_⟩
      · constructor
        · intro h; simp only at h; omega
        · intro h; omega
      · intro _; exact h0
      · intro h; simp only at h; omega

theorem search_sentinel_iff_witness :
    ((∀ i, memOf [0, 1] 0 i < 2) ∧ (∀ i, memOf [0, 1, 0, 1, 0, 1] 0 i < 2)) ∧
    ∃ r, search 2 (memOf [0, 1] 0) 2 (memOf [0, 1, 0, 1, 0, 1] 0) 6 = some r ∧
      (r.ret = -1 ↔ ((2 : Int) < 2 ∨ (6 : Int) < 2 + 2)) ∧
      (¬ ((2 : Int) < 2 ∨ (6 : Int) < 2 + 2) → 0 ≤ r.ret) ∧
      (r.ret = -1 → r.y = memOf [0, 1, 0, 1, 0, 1] 0 ∧ r.accesses = []) :=
  ⟨⟨memOf_lt [0, 1] 0 2 (by decide) (by decide),
    memOf_lt [0, 1, 0, 1, 0, 1] 0 2 (by decide) (by decide)⟩,
   search_sentinel_iff 2 (memOf [0, 1] 0) (memOf [0, 1, 0, 1, 0, 1] 0) 2 6
    (memOf_lt [0, 1] 0 2 (by decide) (by decide))
    (memOf_lt [0, 1, 0, 1, 0, 1] 0 2 (by decide) (by decide))⟩

end tvsbs

/-! ### The inputs on which the code leaves the contract -/

/-- Claim C1 fails on the code: for the pattern `0 1` and the text `0 0 0` over
the alphabet of symbol values `0` and `1`, `search` of gammaskip.c returns `1`
although the pattern occurs at no offset; the candidate at offset `1` passes
`strncmp`, which stops at the shared null byte. -/
theorem gammaskip_search_phantom :
    gammaskip.search (memOf [0, 1] 0) 2 (memOf [0, 0, 0] 2) 3 = some 1 ∧
    naiveCount (memOf [0, 1] 0) 2 (memOf [0, 0, 0] 2) 3 = 0 := by
  decide

/-- Claim C2 fails on the code: for the pattern `0 0 0` and the text
`0 0 0 0 0` (`m = 3`, `n = 5`, so that `n / 2 = n - m = 2`) `search` of
tvsbs-w4.c returns `2` although the pattern occurs at the offsets `0, 1, 2`;
the occurrence at `2`, the start of both cursor 3 and cursor 4, is lost. -/
theorem tvsbs_search_loses_midpoint :
    (tvsbs.search 2 (memOf [0, 0, 0] 0) 3 (memOf [0, 0, 0, 0, 0] 1) 5).map (fun r => r.ret)
      = some 2 ∧
    naiveCount (memOf [0, 0, 0] 0) 3 (memOf [0, 0, 0, 0, 0] 1) 5 = 3 := by
  decide

/-- Claim C3 fails on the code: for the pattern `1 0` and the text `1 1`
(`m = n = 2`) stored with a null byte after it, `search` of gskip.cpp returns
`1` although the pattern does not occur at offset `0`, the only offset in
`[0, n - m]`; the candidate at offset `1` is compared with `y[1], y[2]`. -/
theorem gskip_search_past_end :
    gskip.search (memOf [1, 0] 0) 2 (memOf [1, 1, 0] 2) 2 = some 1 ∧
    naiveCount (memOf [1, 0] 0) 2 (memOf [1, 1, 0] 2) 2 = 0 := by
  decide

/-- Claim C5 fails on the code: for `m = 2`, `n = 4` the first iteration of the
main loop of `search` (tvsbs-w4.c) has `s2 = 1` and reads `y[s2 - 2] = y[-1]`,
an index outside `[0, n + 2m)`. -/
theorem tvsbs_search_reads_before_buffer :
    ∃ r, tvsbs.search 2 (memOf [0, 1] 0) 2 (memOf [1, 1, 1, 1] 0) 4 = some r ∧
      (-1 : Int) ∈ r.accesses ∧
      ¬ (∀ i ∈ r.accesses, 0 ≤ i ∧ i < 4 + 2 * 2) :=
  ⟨_, rfl, by decide, by decide⟩

/-- Claim C6 fails on the code: on a node of the alphabet `[0, 1]`,
`GammaNode_get` indexes the two-slot child array out of bounds for the symbol
`2` (above `maxChar`) and for the symbol `-1` (below `minChar`; the comparison
with `arrayOffset` is unsigned), instead of returning `NULL`. -/
theorem GammaNode_get_out_of_range :
    gammaskip.GammaNode_get (gammaskip.GammaNode_init 0 1) 2 = none ∧
    gammaskip.GammaNode_get (gammaskip.GammaNode_init 0 1) (-1) = none := by
  constructor <;> rfl

/-- Claim C7 fails on the code: for the pattern `0 1` and the text `1 0 0`,
`search` of gammaskip.c returns `1` and `search` of gskip.cpp returns `0`. -/
theorem gammaskip_gskip_differ :
    gammaskip.search (memOf [0, 1] 0) 2 (memOf [1, 0, 0] 2) 3 = some 1 ∧
    gskip.search (memOf [0, 1] 0) 2 (memOf [1, 0, 0] 2) 3 = some 0 := by
  decide

/-! ### The buffer, the progress of the cursors and the safety of the shifts -/

/-- A property that iteration `i0` of a counted loop establishes and that every
later iteration keeps holds after the loop. -/
theorem forLoop_establish {σ : Type} (R : σ → Prop) (body : Nat → σ → σ) (k i0 : Nat) (s : σ)
    (hi : i0 < k) (hest : ∀ t, R (body i0 t))
    (hpres : ∀ i t, i0 < i → i < k → R t → R (body i t)) : R (forLoop k body s) := by
  induction k with
  | zero => omega
  | succ k ih =>
    show R (body k (forLoop k body s))
    by_cases h : i0 = k
    · subst h; exact hest _
    · exact hpres k _ (by omega) (Nat.lt_succ_self k)
        (ih (by omega) (fun i t h1 h2 ht => hpres i t h1 (by omega) ht))

namespace tvsbs

theorem sentinels_loop_apply (x : Mem) (m : Int) (y : Mem) (n : Int) (k : Nat) (j : Int) :
    (k : Int) ≤ m →
    forLoop k (fun i y1 => store (store y1 (n + m + i) (x i)) (n + i) (x i)) y j =
      if n ≤ j ∧ j < n + k then x (j - n)
      else if n + m ≤ j ∧ j < n + m + k then x (j - n - m) else y j := by
  induction k with
  | zero =>
    intro _
    simp only [forLoop]
    split_ifs <;> first | rfl | (exfalso; push_cast at *; omega)
  | succ k ih =>
    intro hk
    have ih1 := ih (by push_cast at hk; omega)
    simp only [forLoop, store, ih1]
    push_cast at hk ⊢
    split_ifs <;> first | rfl | (exfalso; omega) | (congr 1; omega)

/-- The buffer after the sentinel loop. -/
theorem sentinels_apply (x : Mem) (m : Int) (y : Mem) (n : Int) (hm : 0 ≤ m) (j : Int) :
    sentinels x m y n j =
      if n ≤ j ∧ j < n + m then x (j - n)
      else if n + m ≤ j ∧ j < n + m + m then x (j - n - m) else y j := by
  unfold sentinels
  rw [sentinels_loop_apply x m y n m.toNat j (by omega)]
  rw [Int.toNat_of_nonneg hm]

theorem reversed_loop_apply (x : Mem) (m : Int) (k : Nat) (init : Mem) (j : Int) :
    forLoop k (fun i xr => store xr i (x (m - 1 - i))) init j =
      if 0 ≤ j ∧ j < k then x (m - 1 - j) else init j := by
  induction k with
  | zero =>
    simp only [forLoop]
    split_ifs <;> first | rfl | (exfalso; push_cast at *; omega)
  | succ k ih =>
    simp only [forLoop, store, ih]
    push_cast
    split_ifs <;> first | rfl | (exfalso; omega) | (congr 1; omega)

/-- The reversed pattern: `xr[j] = x[m - 1 - j]` for `0 ≤ j < m`. -/
theorem reversed_apply (x : Mem) (m : Int) (j : Int) (h0 : 0 ≤ j) (h1 : j < m) :
    reversed x m j = x (m - 1 - j) := by
  have h := reversed_loop_apply x m m.toNat (fun _ => 0) j
  rw [if_pos (by omega)] at h
  unfold reversed
  show (if j = m then 0 else _) = _
  rw [if_neg (by omega)]
  exact h

end tvsbs

namespace tvsbs

/-- When the main loop returns, its condition is false. -/
theorem mainLoop_exit (BrBcR BrBcL : Table) (x y : Mem) (m : Int) (fuel : Nat) :
    ∀ c c1 : Cursors, mainLoop BrBcR BrBcL x y m fuel c = some c1 →
      ¬ (c1.s1 ≤ c1.s2 ∨ c1.s3 ≤ c1.s4) := by
  induction fuel with
  | zero =>
    intro c c1 h
    unfold mainLoop at h
    split_ifs at h with hc
    cases h
    exact hc
  | succ f ih =>
    intro c c1 h
    unfold mainLoop at h
    split_ifs at h with hc
    · exact ih _ _ h
    · cases h
      exact hc

/-- For an applicable input the main loop of `search` returns within `n`
iterations, and `search` returns the count together with the buffer in which
`y[n]` has been reset. -/
theorem search_applicable (SIGMA : Nat) (x y : Mem) (m n : Int)
    (hx : ∀ i, x i < SIGMA) (hy : ∀ i, y i < SIGMA) (hm : 2 ≤ m) (hn : m + 2 ≤ n) :
    ∃ c1, mainLoop (TVSBSpreBrBc SIGMA x m (fun _ _ => 0))
        (TVSBSpreBrBc SIGMA (reversed x m) m (fun _ _ => 0)) x (sentinels x m y n) m n.toNat
        ⟨0, if Int.tdiv n 2 - 1 > n - m then n - m else Int.tdiv n 2 - 1, Int.tdiv n 2, n - m,
          0, if Int.tdiv n 2 - 1 > n - m then n - m else Int.tdiv n 2 - 1, Int.tdiv n 2, n - m,
          0, sentinelWrites m n⟩ = some c1 ∧
      0 ≤ c1.count ∧
      search SIGMA x m y n = some ⟨c1.count, store (sentinels x m y n) n 0, c1.accesses ++ [n]⟩ := by
  have hb := sentinels_bytes SIGMA x m y n hx hy
  have hq : Int.tdiv n 2 = n / 2 := Int.tdiv_eq_ediv (by omega) (by omega)
  obtain ⟨c1, hc1, hcount⟩ := mainLoop_returns
    (TVSBSpreBrBc SIGMA x m (fun _ _ => 0))
    (TVSBSpreBrBc SIGMA (reversed x m) m (fun _ _ => 0)) x (sentinels x m y n) m
    (fun i j => (TVSBSpreBrBc_cell_range SIGMA x m _ hm _ _ (hb i) (hb j)).1)
    (fun i j => (TVSBSpreBrBc_cell_range SIGMA (reversed x m) m _ hm _ _ (hb i) (hb j)).1)
    n.toNat
    ⟨0, if Int.tdiv n 2 - 1 > n - m then n - m else Int.tdiv n 2 - 1, Int.tdiv n 2, n - m,
      0, if Int.tdiv n 2 - 1 > n - m then n - m else Int.tdiv n 2 - 1, Int.tdiv n 2, n - m,
      0, sentinelWrites m n⟩
    (by simp only [hq]; split_ifs <;> omega) (by simp only [hq]; omega)
  refine ⟨c1, hc1, hcount, ?_⟩
  unfold search
  rw [if_neg (by omega), if_neg (by omega)]
  simp only [hc1, Option.map_some']

/-- Claim C12: for every applicable input (`m ≥ 2`, `n ≥ m + 2`, bytes below
`SIGMA`) `search` of tvsbs-w4.c returns, and in the buffer it leaves the bytes
below index `n` are unchanged, `y[n] = 0`, `y[n + i] = x[i]` for `1 ≤ i < m` and
`y[n + m + i] = x[i]` for `0 ≤ i < m`. -/
theorem search_frame (SIGMA : Nat) (x y : Mem) (m n : Int)
    (hx : ∀ i, x i < SIGMA) (hy : ∀ i, y i < SIGMA) (hm : 2 ≤ m) (hn : m + 2 ≤ n) :
    ∃ r, search SIGMA x m y n = some r ∧
      (∀ j, j < n → r.y j = y j) ∧
      r.y n = 0 ∧
      (∀ i, 1 ≤ i → i < m → r.y (n + i) = x i) ∧
      (∀ i, 0 ≤ i → i < m → r.y (n + m + i) = x i) := by
  obtain ⟨c1, _, _, hs⟩ := search_applicable SIGMA x y m n hx hy hm hn
  refine ⟨_, hs, ?_, ?_, ?_, ?_⟩
  · intro j hj
    show store (sentinels x m y n) n 0 j = y j
    unfold store
    rw [if_neg (by omega), sentinels_apply x m y n (by omega), if_neg (by omega),
      if_neg (by omega)]
  · show store (sentinels x m y n) n 0 n = 0
    unfold store
    rw [if_pos rfl]
  · intro i h1 h2
    show store (sentinels x m y n) n 0 (n + i) = x i
    unfold store
    rw [if_neg (by omega), sentinels_apply x m y n (by omega), if_pos (by omega)]
    congr 1; omega
  · intro i h1 h2
    show store (sentinels x m y n) n 0 (n + m + i) = x i
    unfold store
    rw [if_neg (by omega), sentinels_apply x m y n (by omega), if_neg (by omega),
      if_pos (by omega)]
    congr 1; omega

theorem search_frame_witness :
    ((∀ i, memOf [0, 1] 0 i < 2) ∧ (∀ i, memOf [0, 1, 0, 1, 0, 1] 0 i < 2) ∧
      (2 : Int) ≤ 2 ∧ (2 : Int) + 2 ≤ 6) ∧
    ∃ r, search 2 (memOf [0, 1] 0) 2 (memOf [0, 1, 0, 1, 0, 1] 0) 6 = some r ∧
      (∀ j, j < 6 → r.y j = memOf [0, 1, 0, 1, 0, 1] 0 j) ∧
      r.y 6 = 0 ∧
      (∀ i, 1 ≤ i → i < 2 → r.y (6 + i) = memOf [0, 1] 0 i) ∧
      (∀ i, 0 ≤ i → i < 2 → r.y (6 + 2 + i) = memOf [0, 1] 0 i) :=
  ⟨⟨memOf_lt [0, 1] 0 2 (by decide) (by decide),
    memOf_lt [0, 1, 0, 1, 0, 1] 0 2 (by decide) (by decide), by decide, by decide⟩,
   search_frame 2 (memOf [0, 1] 0) (memOf [0, 1, 0, 1, 0, 1] 0) 2 6
    (memOf_lt [0, 1] 0 2 (by decide) (by decide))
    (memOf_lt [0, 1, 0, 1, 0, 1] 0 2 (by decide) (by decide)) (by decide) (by decide)⟩

/-- Claim C13: for every applicable input (`m ≥ 2`, `n ≥ m + 2`, bytes below
`SIGMA`) every iteration of the main loop of `search` moves cursor 1 and
cursor 3 up and cursor 2 and cursor 4 down, each by a table value that is at
least `1`, and the loop started by `search` ends within `n` iterations (the
fuel `n` suffices) with the condition `s1 <= s2 || s3 <= s4` false. -/
theorem mainLoop_terminates (SIGMA : Nat) (x y : Mem) (m n : Int)
    (hx : ∀ i, x i < SIGMA) (hy : ∀ i, y i < SIGMA) (hm : 2 ≤ m) (hn : m + 2 ≤ n) :
    (∀ c : Cursors,
      c.s1 + 1 ≤ (step (TVSBSpreBrBc SIGMA x m (fun _ _ => 0))
          (TVSBSpreBrBc SIGMA (reversed x m) m (fun _ _ => 0)) x (sentinels x m y n) m c).s1 ∧
      (step (TVSBSpreBrBc SIGMA x m (fun _ _ => 0))
          (TVSBSpreBrBc SIGMA (reversed x m) m (fun _ _ => 0)) x (sentinels x m y n) m c).s2
        ≤ c.s2 - 1 ∧
      c.s3 + 1 ≤ (step (TVSBSpreBrBc SIGMA x m (fun _ _ => 0))
          (TVSBSpreBrBc SIGMA (reversed x m) m (fun _ _ => 0)) x (sentinels x m y n) m c).s3 ∧
      (step (TVSBSpreBrBc SIGMA x m (fun _ _ => 0))
          (TVSBSpreBrBc SIGMA (reversed x m) m (fun _ _ => 0)) x (sentinels x m y n) m c).s4
        ≤ c.s4 - 1) ∧
    ∃ c1, mainLoop (TVSBSpreBrBc SIGMA x m (fun _ _ => 0))
        (TVSBSpreBrBc SIGMA (reversed x m) m (fun _ _ => 0)) x (sentinels x m y n) m n.toNat
        ⟨0, if Int.tdiv n 2 - 1 > n - m then n - m else Int.tdiv n 2 - 1, Int.tdiv n 2, n - m,
          0, if Int.tdiv n 2 - 1 > n - m then n - m else Int.tdiv n 2 - 1, Int.tdiv n 2, n - m,
          0, sentinelWrites m n⟩ = some c1 ∧
      ¬ (c1.s1 ≤ c1.s2 ∨ c1.s3 ≤ c1.s4) ∧
      search SIGMA x m y n = some ⟨c1.count, store (sentinels x m y n) n 0, c1.accesses ++ [n]⟩ := by
  have hb := sentinels_bytes SIGMA x m y n hx hy
  constructor
  · intro c
    obtain ⟨e1, e2, e3, e4, _⟩ := step_cursors (TVSBSpreBrBc SIGMA x m (fun _ _ => 0))
      (TVSBSpreBrBc SIGMA (reversed x m) m (fun _ _ => 0)) x (sentinels x m y n) m c
    have r1 := (TVSBSpreBrBc_cell_range SIGMA x m (fun _ _ => 0) hm _ _
      (hb (c.s1 + m)) (hb (c.s1 + (m + 1)))).1
    have r3 := (TVSBSpreBrBc_cell_range SIGMA x m (fun _ _ => 0) hm _ _
      (hb (c.s3 + m)) (hb (c.s3 + (m + 1)))).1
    have r2 := (TVSBSpreBrBc_cell_range SIGMA (reversed x m) m (fun _ _ => 0) hm _ _
      (hb (c.s2 - 1)) (hb (c.s2 - 2))).1
    have r4 := (TVSBSpreBrBc_cell_range SIGMA (reversed x m) m (fun _ _ => 0) hm _ _
      (hb (c.s4 - 1)) (hb (c.s4 - 2))).1
    rw [e1, e2, e3, e4]
    exact ⟨by omega, by omega, by omega, by omega⟩
  · obtain ⟨c1, hc1, _, hs⟩ := search_applicable SIGMA x y m n hx hy hm hn
    exact ⟨c1, hc1, mainLoop_exit _ _ _ _ _ _ _ _ hc1, hs⟩

theorem mainLoop_terminates_witness :
    ((∀ i, memOf [0, 1] 0 i < 2) ∧ (∀ i, memOf [0, 1, 0, 1, 0, 1] 0 i < 2) ∧
      (2 : Int) ≤ 2 ∧ (2 : Int) + 2 ≤ 6) ∧
    ∃ c1, mainLoop (TVSBSpreBrBc 2 (memOf [0, 1] 0) 2 (fun _ _ => 0))
        (TVSBSpreBrBc 2 (reversed (memOf [0, 1] 0) 2) 2 (fun _ _ => 0)) (memOf [0, 1] 0)
        (sentinels (memOf [0, 1] 0) 2 (memOf [0, 1, 0, 1, 0, 1] 0) 6) 2 (6 : Int).toNat
        ⟨0, if Int.tdiv 6 2 - 1 > 6 - 2 then 6 - 2 else Int.tdiv 6 2 - 1, Int.tdiv 6 2, 6 - 2,
          0, if Int.tdiv 6 2 - 1 > 6 - 2 then 6 - 2 else Int.tdiv 6 2 - 1, Int.tdiv 6 2, 6 - 2,
          0, sentinelWrites 2 6⟩ = some c1 ∧
      ¬ (c1.s1 ≤ c1.s2 ∨ c1.s3 ≤ c1.s4) ∧
      search 2 (memOf [0, 1] 0) 2 (memOf [0, 1, 0, 1, 0, 1] 0) 6 =
        some ⟨c1.count, store (sentinels (memOf [0, 1] 0) 2 (memOf [0, 1, 0, 1, 0, 1] 0) 6) 6 0,
          c1.accesses ++ [6]⟩ :=
  ⟨⟨memOf_lt [0, 1] 0 2 (by decide) (by decide),
    memOf_lt [0, 1, 0, 1, 0, 1] 0 2 (by decide) (by decide), by decide, by decide⟩,
   (mainLoop_terminates 2 (memOf [0, 1] 0) (memOf [0, 1, 0, 1, 0, 1] 0) 2 6
    (memOf_lt [0, 1] 0 2 (by decide) (by decide))
    (memOf_lt [0, 1, 0, 1, 0, 1] 0 2 (by decide) (by decide)) (by decide) (by decide)).2⟩

/-- The table of a pattern `z`: the row of `z[m-1]` holds `1`. -/
theorem TVSBSpreBrBc_last_row (SIGMA : Nat) (z : Mem) (m : Int) (t0 : Table)
    (b : Nat) (hb : b < SIGMA) : TVSBSpreBrBc SIGMA z m t0 (z (m - 1)) b = 1 := by
  unfold TVSBSpreBrBc
  simp [rowFill_apply, hb]

/-- The table of a pattern `z`: the cell of the pair `z[i] z[i+1]`, `0 ≤ i ≤ m - 2`,
holds at most `m - i`. -/
theorem TVSBSpreBrBc_pair (SIGMA : Nat) (z : Mem) (m : Int) (t0 : Table)
    (i : Int) (h0 : 0 ≤ i) (h1 : i ≤ m - 2) :
    TVSBSpreBrBc SIGMA z m t0 (z i) (z (i + 1)) ≤ m - i := by
  unfold TVSBSpreBrBc
  simp only [rowFill_apply]
  split_ifs
  · omega
  · have key := forLoop_establish
      (fun t : Table => t (z ((i.toNat : Nat) : Int)) (z (((i.toNat : Nat) : Int) + 1))
        ≤ m - ((i.toNat : Nat) : Int))
      (fun i t => setCell t (z i) (z ((i : Int) + 1)) (m - i)) (m - 1).toNat i.toNat
      (forLoop SIGMA (fun a t => setCell t a (z 0) (m + 1))
        (forLoop SIGMA (fun a t => forLoop SIGMA (fun b t => setCell t a b (m + 2)) t) t0))
      (by omega)
      (by intro t; simp [setCell])
      (by
        intro j t hj _ ht
        simp only [setCell]
        split_ifs
        · omega
        · exact ht)
    rw [Int.toNat_of_nonneg h0] at key
    exact key

/-- The table of a pattern `z`: the column of `z[0]` holds at most `m + 1`. -/
theorem TVSBSpreBrBc_first_col (SIGMA : Nat) (z : Mem) (m : Int) (t0 : Table) (hm : 2 ≤ m)
    (a : Nat) (ha : a < SIGMA) : TVSBSpreBrBc SIGMA z m t0 a (z 0) ≤ m + 1 := by
  unfold TVSBSpreBrBc
  simp only [rowFill_apply]
  split_ifs
  · omega
  · apply forLoop_invariant (fun t : Table => t a (z 0) ≤ m + 1)
    · rw [colFill_apply, if_pos ⟨ha, rfl⟩]
    · intro j t _ ht
      simp only [setCell]
      split_ifs
      · omega
      · exact ht

/-- Shift safety of a table in terms of the pattern `z` it is built from: if
the symbols `a b` are what an occurrence `d ≥ 1` positions further shows at the
two probed places, the cell of `a b` holds at most `d`. -/
theorem TVSBSpreBrBc_safe (SIGMA : Nat) (z : Mem) (m : Int) (t0 : Table) (hm : 2 ≤ m)
    (a b : Nat) (ha : a < SIGMA) (hb : b < SIGMA) (d : Int) (hd : 1 ≤ d)
    (h1 : d = 1 → a = z (m - 1))
    (h2 : 2 ≤ d → d ≤ m → a = z (m - d) ∧ b = z (m - d + 1))
    (h3 : d = m + 1 → b = z 0) :
    TVSBSpreBrBc SIGMA z m t0 a b ≤ d := by
  by_cases c1 : d = 1
  · rw [h1 c1, TVSBSpreBrBc_last_row SIGMA z m t0 b hb]; omega
  · by_cases c2 : d ≤ m
    · obtain ⟨ea, eb⟩ := h2 (by omega) c2
      rw [ea, eb]
      have := TVSBSpreBrBc_pair SIGMA z m t0 (m - d) (by omega) (by omega)
      omega
    · by_cases c3 : d = m + 1
      · rw [h3 c3]
        have := TVSBSpreBrBc_first_col SIGMA z m t0 hm a ha
        omega
      · have := (TVSBSpreBrBc_cell_range SIGMA z m t0 hm a b ha hb).2
        omega

/-- Claim C19 (forward shift safety): for a pattern `x` of length `m ≥ 2`, a
buffer `y`, an alignment `s` and `d ≥ 1` such that the pattern occurs at
`s + d`, the forward table built by `TVSBSpreBrBc(x, m, .)` holds at most `d`
in the cell of `y[s + m]`, `y[s + m + 1]` (two symbols below `SIGMA`), so a
cursor advanced by the table value does not jump over the occurrence. -/
theorem forward_shift_safe (SIGMA : Nat) (x y : Mem) (m : Int) (t0 : Table) (hm : 2 ≤ m)
    (s d : Int) (hd : 1 ≤ d)
    (ha : y (s + m) < SIGMA) (hb : y (s + (m + 1)) < SIGMA)
    (hocc : ∀ i, 0 ≤ i → i < m → y (s + d + i) = x i) :
    TVSBSpreBrBc SIGMA x m t0 (y (s + m)) (y (s + (m + 1))) ≤ d := by
  apply TVSBSpreBrBc_safe SIGMA x m t0 hm _ _ ha hb d hd
  · intro h
    rw [← hocc (m - 1) (by omega) (by omega)]
    congr 1; omega
  · intro h2 h3
    constructor
    · rw [← hocc (m - d) (by omega) (by omega)]
      congr 1; omega
    · rw [← hocc (m - d + 1) (by omega) (by omega)]
      congr 1; omega
  · intro h
    rw [← hocc 0 (by omega) (by omega)]
    congr 1; omega

theorem forward_shift_safe_witness :
    ((2 : Int) ≤ 3 ∧ (1 : Int) ≤ 1 ∧ memOf [1, 0, 1, 1, 0] 0 (0 + 3) < 2 ∧
      memOf [1, 0, 1, 1, 0] 0 (0 + (3 + 1)) < 2 ∧
      (∀ i : Int, 0 ≤ i → i < 3 → memOf [1, 0, 1, 1, 0] 0 (0 + 1 + i) = memOf [0, 1, 1] 0 i)) ∧
    TVSBSpreBrBc 2 (memOf [0, 1, 1] 0) 3 (fun _ _ => 0) (memOf [1, 0, 1, 1, 0] 0 (0 + 3))
      (memOf [1, 0, 1, 1, 0] 0 (0 + (3 + 1))) ≤ 1 :=
  ⟨⟨by decide, by decide, by decide, by decide,
      by intro i h0 h1; interval_cases i <;> decide⟩,
   forward_shift_safe 2 (memOf [0, 1, 1] 0) (memOf [1, 0, 1, 1, 0] 0) 3 (fun _ _ => 0)
     (by decide) 0 1 (by decide) (by decide) (by decide)
     (by intro i h0 h1; interval_cases i <;> decide)⟩

/-- Claim C20 (backward shift safety): for a pattern `x` of length `m ≥ 2`, a
buffer `y`, an alignment `s` and `d ≥ 1` such that the pattern occurs at
`s - d`, the backward table (`TVSBSpreBrBc` applied to the reverse of `x`, as
in `search`) holds at most `d` in the cell of `y[s - 1]`, `y[s - 2]` (two
symbols below `SIGMA`), so a cursor moved back by the table value does not
jump over the occurrence. -/
theorem backward_shift_safe (SIGMA : Nat) (x y : Mem) (m : Int) (t0 : Table) (hm : 2 ≤ m)
    (s d : Int) (hd : 1 ≤ d)
    (ha : y (s - 1) < SIGMA) (hb : y (s - 2) < SIGMA)
    (hocc : ∀ i, 0 ≤ i → i < m → y (s - d + i) = x i) :
    TVSBSpreBrBc SIGMA (reversed x m) m t0 (y (s - 1)) (y (s - 2)) ≤ d := by
  apply TVSBSpreBrBc_safe SIGMA (reversed x m) m t0 hm _ _ ha hb d hd
  · intro h
    rw [reversed_apply x m (m - 1) (by omega) (by omega)]
    exact (congrArg y (by omega : s - 1 = s - d + 0)).trans
      ((hocc 0 (by omega) (by omega)).trans (congrArg x (by omega : (0 : Int) = m - 1 - (m - 1))))
  · intro h2 h3
    constructor
    · rw [reversed_apply x m (m - d) (by omega) (by omega)]
      exact (congrArg y (by omega : s - 1 = s - d + (d - 1))).trans
        ((hocc (d - 1) (by omega) (by omega)).trans
          (congrArg x (by omega : d - 1 = m - 1 - (m - d))))
    · rw [reversed_apply x m (m - d + 1) (by omega) (by omega)]
      exact (congrArg y (by omega : s - 2 = s - d + (d - 2))).trans
        ((hocc (d - 2) (by omega) (by omega)).trans
          (congrArg x (by omega : d - 2 = m - 1 - (m - d + 1))))
  · intro h
    rw [reversed_apply x m 0 (by omega) (by omega)]
    exact (congrArg y (by omega : s - 2 = s - d + (m - 1))).trans
      ((hocc (m - 1) (by omega) (by omega)).trans
        (congrArg x (by omega : m - 1 = m - 1 - 0)))

theorem backward_shift_safe_witness :
    ((2 : Int) ≤ 3 ∧ (1 : Int) ≤ 2 ∧ memOf [1, 0, 1, 1, 0] 0 (3 - 1) < 2 ∧
      memOf [1, 0, 1, 1, 0] 0 (3 - 2) < 2 ∧
      (∀ i : Int, 0 ≤ i → i < 3 → memOf [1, 0, 1, 1, 0] 0 (3 - 2 + i) = memOf [0, 1, 1] 0 i)) ∧
    TVSBSpreBrBc 2 (reversed (memOf [0, 1, 1] 0) 3) 3 (fun _ _ => 0)
      (memOf [1, 0, 1, 1, 0] 0 (3 - 1)) (memOf [1, 0, 1, 1, 0] 0 (3 - 2)) ≤ 2 :=
  ⟨⟨by decide, by decide, by decide, by decide,
      by intro i h0 h1; interval_cases i <;> decide⟩,
   backward_shift_safe 2 (memOf [0, 1, 1] 0) (memOf [1, 0, 1, 1, 0] 0) 3 (fun _ _ => 0)
     (by decide) 3 2 (by decide) (by decide) (by decide)
     (by intro i h0 h1; interval_cases i <;> decide)⟩

end tvsbs

/-! ### The factor trie -/

namespace gammaskip

theorem toSizeT_small (c : Int) (h0 : 0 ≤ c) (h1 : c ≤ 127) : toSizeT c = c.toNat := by
  unfold toSizeT
  rw [Int.emod_eq_of_lt h0 (by omega)]

/-- On a node laid out for `[minChar, maxChar]` the lookup of a symbol of that
range reads the slot `c - minChar`, which lies inside the array. -/
theorem GammaNode_get_inRange (minChar maxChar : Int) (h0 : 0 ≤ minChar) (hmax : maxChar ≤ 127)
    (nd : GammaNode) (hs : nd.shaped minChar maxChar) (c : Int) (h1 : minChar ≤ c)
    (h2 : c ≤ maxChar) :
    (c - minChar).toNat < nd.children.length ∧
    nd.slot c = (c - minChar).toNat ∧
    GammaNode_get nd c = some (nd.children.getD (c - minChar).toNat none) := by
  obtain ⟨hlen, hoff⟩ := hs
  have hslot : nd.slot c = (c - minChar).toNat := by
    unfold GammaNode.slot
    rw [hoff, Int.toNat_of_nonneg h0, Int.emod_eq_of_lt (by omega) (by omega)]
  have hlt : (c - minChar).toNat < nd.children.length := by rw [hlen]; omega
  refine ⟨hlt, hslot, ?_⟩
  unfold GammaNode_get
  rw [if_pos (by rw [toSizeT_small c (by omega) (by omega), hoff]; omega), hslot,
    List.getD_eq_getElem?_getD, List.getElem?_eq_getElem hlt]
  rfl

/-- Below `minChar` (and not negative) the lookup returns `NULL`. -/
theorem GammaNode_get_below (minChar maxChar : Int) (nd : GammaNode)
    (hs : nd.shaped minChar maxChar) (c : Int) (h0 : 0 ≤ c) (h1 : c < minChar)
    (hmax : maxChar ≤ 127) (hle : minChar ≤ maxChar) :
    GammaNode_get nd c = some none := by
  unfold GammaNode_get
  rw [if_neg (by rw [toSizeT_small c h0 (by omega), hs.2]; omega)]

theorem GammaNode_init_shaped (minChar maxChar : Int) (h0 : 0 ≤ minChar)
    (hle : minChar ≤ maxChar) (hmax : maxChar ≤ 127) :
    (GammaNode_init minChar maxChar).shaped minChar maxChar := by
  have e1 : toSizeT (maxChar - minChar + 1) = (maxChar - minChar + 1).toNat := by
    unfold toSizeT
    rw [Int.emod_eq_of_lt (by omega) (by omega)]
  constructor
  · show (List.replicate (toSizeT (maxChar - minChar + 1)) none).length = _
    rw [List.length_replicate, e1]
  · show toSizeT minChar = _
    exact toSizeT_small minChar h0 (by omega)

theorem GammaNode_init_get (minChar maxChar : Int) (h0 : 0 ≤ minChar)
    (hle : minChar ≤ maxChar) (hmax : maxChar ≤ 127) (c : Int) (h1 : minChar ≤ c)
    (h2 : c ≤ maxChar) : GammaNode_get (GammaNode_init minChar maxChar) c = some none := by
  obtain ⟨hlt, _, hg⟩ := GammaNode_get_inRange minChar maxChar h0 hmax _
    (GammaNode_init_shaped minChar maxChar h0 hle hmax) c h1 h2
  rw [hg]
  show some ((List.replicate _ none).getD _ none) = _
  rw [List.getD_eq_getElem?_getD]
  simp only [List.getElem?_replicate]
  split_ifs <;> rfl

theorem GammaNode_addPos_shaped (minChar maxChar : Int) (nd : GammaNode) (k : Int)
    (hs : nd.shaped minChar maxChar) : (GammaNode_addPos nd k).shaped minChar maxChar := hs

theorem GammaNode_addPos_get (nd : GammaNode) (k c : Int) :
    GammaNode_get (GammaNode_addPos nd k) c = GammaNode_get nd c := rfl

theorem GammaNode_addPos_firstPos (nd : GammaNode) (k : Int) :
    (GammaNode_addPos nd k).firstPos = nd.firstPos ++ [k] := rfl

/-- The assignment `node->children[c] = child` for a symbol of the alphabet:
it succeeds, keeps layout and positions, makes `child` the child for `c` and
leaves the other children as they are. -/
theorem GammaNode_set_spec (minChar maxChar : Int) (h0 : 0 ≤ minChar) (hmax : maxChar ≤ 127)
    (nd : GammaNode) (hs : nd.shaped minChar maxChar) (c : Int) (h1 : minChar ≤ c)
    (h2 : c ≤ maxChar) (ch : GammaNode) :
    ∃ nd1, GammaNode_set nd c ch = some nd1 ∧ nd1.shaped minChar maxChar ∧
      nd1.firstPos = nd.firstPos ∧
      GammaNode_get nd1 c = some (some ch) ∧
      ∀ c1, minChar ≤ c1 → c1 ≤ maxChar → c1 ≠ c → GammaNode_get nd1 c1 = GammaNode_get nd c1 := by
  obtain ⟨hlt, hslot, -⟩ := GammaNode_get_inRange minChar maxChar h0 hmax nd hs c h1 h2
  have hs1 : (GammaNode.mk (nd.children.set (c - minChar).toNat (some ch)) nd.firstPos
      nd.arraySize nd.arrayOffset).shaped minChar maxChar := by
    constructor
    · show (nd.children.set _ _).length = _
      rw [List.length_set]; exact hs.1
    · exact hs.2
  refine ⟨.mk (nd.children.set (c - minChar).toNat (some ch)) nd.firstPos
      nd.arraySize nd.arrayOffset, ?_, hs1, rfl, ?_, ?_⟩
  · unfold GammaNode_set
    rw [if_pos (by rw [hslot]; exact hlt), hslot]
  · rw [(GammaNode_get_inRange minChar maxChar h0 hmax _ hs1 c h1 h2).2.2]
    show some ((nd.children.set _ _).getD _ none) = _
    rw [List.getD_eq_getElem?_getD, List.getElem?_set_self hlt]
    rfl
  · intro c1 h3 h4 hne
    rw [(GammaNode_get_inRange minChar maxChar h0 hmax _ hs1 c1 h3 h4).2.2,
      (GammaNode_get_inRange minChar maxChar h0 hmax nd hs c1 h3 h4).2.2]
    show some ((nd.children.set _ _).getD _ none) = _
    rw [List.getD_eq_getElem?_getD, List.getD_eq_getElem?_getD,
      List.getElem?_set_ne (by omega)]

theorem pathWalk_cons_child (nd ch : GammaNode) (c : Int) (cs : List Int)
    (h : GammaNode_get nd c = some (some ch)) : pathWalk nd (c :: cs) = pathWalk ch cs := by
  simp only [pathWalk, h]

theorem pathWalk_cons_null (nd : GammaNode) (c : Int) (cs : List Int)
    (h : GammaNode_get nd c = some none) : pathWalk nd (c :: cs) = none := by
  simp only [pathWalk, h]

theorem pathWalk_cons_congr (nd1 nd : GammaNode) (c : Int) (cs : List Int)
    (h : GammaNode_get nd1 c = GammaNode_get nd c) :
    pathWalk nd1 (c :: cs) = pathWalk nd (c :: cs) := by
  simp only [pathWalk, h]

theorem inRange_cons (minChar maxChar : Int) (c : Int) (cs : List Int) :
    inRange minChar maxChar (c :: cs) ↔
      (minChar ≤ c ∧ c ≤ maxChar) ∧ inRange minChar maxChar cs := by
  unfold inRange
  simp

/-- The chain of fresh nodes: it holds exactly the prefixes of the remaining
key, and the position `k` at its end. -/
theorem GammaTrie_newChain_spec (minChar maxChar : Int) (hA : validAlphabet minChar maxChar)
    (sub : Int → Int) (k : Int) (r : Nat) :
    ∀ d, inRange minChar maxChar (keyFrom sub r d) →
      ∃ n, GammaTrie_newChain sub k minChar maxChar r d = some n ∧
        n.wellFormed minChar maxChar r ∧
        ∀ p, inRange minChar maxChar p →
          ((pathWalk n p).isSome ↔ p <+: keyFrom sub r d) ∧
          posAt n p = if p = keyFrom sub r d then [k] else [] := by
  obtain ⟨h0, hle, hmax⟩ := hA
  have hinit := GammaNode_init_shaped minChar maxChar h0 hle hmax
  induction r with
  | zero =>
    intro d _
    have hnull : ∀ c cs, minChar ≤ c → c ≤ maxChar →
        pathWalk (GammaNode_addPos (GammaNode_init minChar maxChar) k) (c :: cs) = none :=
      fun c cs h1 h2 => pathWalk_cons_null _ _ _
        (by rw [GammaNode_addPos_get]; exact GammaNode_init_get minChar maxChar h0 hle hmax c h1 h2)
    refine ⟨GammaNode_addPos (GammaNode_init minChar maxChar) k, rfl, ?_, ?_⟩
    · intro p nd hp hw
      cases p with
      | nil =>
        simp only [pathWalk, Option.some.injEq] at hw
        subst hw
        exact ⟨hinit, le_refl _⟩
      | cons c cs =>
        have hc := ((inRange_cons _ _ _ _).1 hp).1
        rw [hnull c cs hc.1 hc.2] at hw
        cases hw
    · intro p hp
      cases p with
      | nil =>
        constructor
        · simp [pathWalk, keyFrom]
        · simp [posAt, pathWalk, keyFrom, GammaNode_addPos_firstPos]
          rfl
      | cons c cs =>
        have hc := ((inRange_cons _ _ _ _).1 hp).1
        constructor
        · simp [hnull c cs hc.1 hc.2, keyFrom]
        · simp [posAt, hnull c cs hc.1 hc.2, keyFrom]
  | succ r ih =>
    intro d hk
    have hk1 := (inRange_cons _ _ _ _).1 hk
    obtain ⟨n1, hn1, hwf1, hspec1⟩ := ih (d + 1) hk1.2
    obtain ⟨n, hset, hshape, hfp, hget, hother⟩ :=
      GammaNode_set_spec minChar maxChar h0 hmax _ hinit (sub d) hk1.1.1 hk1.1.2 n1
    have hnull : ∀ c cs, minChar ≤ c → c ≤ maxChar → c ≠ sub d → pathWalk n (c :: cs) = none :=
      fun c cs h1 h2 hne => pathWalk_cons_null _ _ _
        (by rw [hother c h1 h2 hne]; exact GammaNode_init_get minChar maxChar h0 hle hmax c h1 h2)
    refine ⟨n, by simp only [GammaTrie_newChain, hn1, Option.some_bind, hset], ?_, ?_⟩
    · intro p nd hp hw
      cases p with
      | nil =>
        simp only [pathWalk, Option.some.injEq] at hw
        subst hw
        exact ⟨hshape, Nat.zero_le _⟩
      | cons c cs =>
        have hc := (inRange_cons _ _ _ _).1 hp
        by_cases hcd : c = sub d
        · subst hcd
          rw [pathWalk_cons_child _ _ _ _ hget] at hw
          have := hwf1 cs nd hc.2 hw
          exact ⟨this.1, by simp only [List.length_cons]; omega⟩
        · rw [hnull c cs hc.1.1 hc.1.2 hcd] at hw
          cases hw
    · intro p hp
      cases p with
      | nil =>
        constructor
        · simp [pathWalk]
        · simp [posAt, pathWalk, keyFrom, hfp]
          rfl
      | cons c cs =>
        have hc := (inRange_cons _ _ _ _).1 hp
        by_cases hcd : c = sub d
        · subst hcd
          have h1 := hspec1 cs hc.2
          constructor
          · rw [pathWalk_cons_child _ _ _ _ hget, h1.1]
            simp [keyFrom, List.cons_prefix_cons]
          · have : posAt n (sub d :: cs) = posAt n1 cs := by
              simp only [posAt, pathWalk_cons_child _ _ _ _ hget]
            rw [this, h1.2]
            simp [keyFrom]
        · constructor
          · simp [hnull c cs hc.1.1 hc.1.2 hcd, keyFrom, List.cons_prefix_cons, hcd]
          · simp [posAt, hnull c cs hc.1.1 hc.1.2 hcd, keyFrom, hcd]

/-- The children of a well-formed node are well-formed, one level lower. -/
theorem wellFormed_child (minChar maxChar : Int) (node ch : GammaNode) (r : Nat) (c : Int)
    (h1 : minChar ≤ c) (h2 : c ≤ maxChar) (hwf : node.wellFormed minChar maxChar (r + 1))
    (hget : GammaNode_get node c = some (some ch)) : ch.wellFormed minChar maxChar r := by
  intro p nd hp hw
  have := hwf (c :: p) nd ((inRange_cons _ _ _ _).2 ⟨⟨h1, h2⟩, hp⟩)
    (by rw [pathWalk_cons_child _ _ _ _ hget]; exact hw)
  exact ⟨this.1, by simpa using this.2⟩

/-- The body of the loop over `k` of `GammaTrie_init` on a well-formed node
with `r` levels to go: it returns, the node stays well-formed, the nodes along
the key are added to those present, and `k` is appended to the positions at
the end of the key and nowhere else.  The symbol `sub[d + r]` that the code
reads after the key has to be a non-negative `char` not above `maxChar`. -/
theorem GammaTrie_insert_spec (minChar maxChar : Int) (hA : validAlphabet minChar maxChar)
    (sub : Int → Int) (k : Int) (r : Nat) :
    ∀ d node, node.wellFormed minChar maxChar r → inRange minChar maxChar (keyFrom sub r d) →
      0 ≤ sub (d + r) → sub (d + r) ≤ maxChar →
      ∃ node1, GammaTrie_insert sub k minChar maxChar r d node = some node1 ∧
        node1.wellFormed minChar maxChar r ∧
        ∀ p, inRange minChar maxChar p →
          ((pathWalk node1 p).isSome ↔ ((pathWalk node p).isSome ∨ p <+: keyFrom sub r d)) ∧
          posAt node1 p = posAt node p ++ (if p = keyFrom sub r d then [k] else []) := by
  have hA1 := hA
  obtain ⟨h0, hle, hmax⟩ := hA
  induction r with
  | zero =>
    intro d node hwf _ he0 he1
    simp only [Nat.cast_zero, add_zero] at he0 he1
    have hshape := (hwf [] node (by intro c hc; cases hc) rfl).1
    have hget : GammaNode_get node (sub d) = some none := by
      by_cases hlow : sub d < minChar
      · exact GammaNode_get_below minChar maxChar node hshape (sub d) he0 hlow hmax hle
      · have hg := (GammaNode_get_inRange minChar maxChar h0 hmax node hshape (sub d)
          (by omega) he1).2.2
        cases hch : node.children.getD (sub d - minChar).toNat none with
        | none => rw [hg, hch]
        | some ch =>
          rw [hch] at hg
          have := hwf [sub d] ch (by intro c hc; simp at hc; subst hc; exact ⟨by omega, he1⟩)
            (by rw [pathWalk_cons_child _ _ _ _ hg]; rfl)
          simp at this
    have hcons : ∀ c cs, pathWalk (GammaNode_addPos node k) (c :: cs) = pathWalk node (c :: cs) :=
      fun c cs => pathWalk_cons_congr _ _ _ _ (GammaNode_addPos_get node k c)
    refine ⟨GammaNode_addPos node k, by simp only [GammaTrie_insert, hget], ?_, ?_⟩
    · intro p nd hp hw
      cases p with
      | nil =>
        simp only [pathWalk, Option.some.injEq] at hw
        subst hw
        exact ⟨hshape, le_refl _⟩
      | cons c cs =>
        rw [hcons] at hw
        exact hwf _ nd hp hw
    · intro p hp
      cases p with
      | nil =>
        constructor
        · simp [pathWalk]
        · simp [posAt, pathWalk, keyFrom, GammaNode_addPos_firstPos]
      | cons c cs =>
        constructor
        · rw [hcons]; simp [keyFrom]
        · simp [posAt, hcons, keyFrom]
  | succ r ih =>
    intro d node hwf hk he0 he1
    have hk1 := (inRange_cons _ _ _ _).1 hk
    have hshape := (hwf [] node (by intro c hc; cases hc) rfl).1
    have he : d + ((r + 1 : Nat) : Int) = d + 1 + (r : Int) := by push_cast; ring
    rw [he] at he0 he1
    have hg := (GammaNode_get_inRange minChar maxChar h0 hmax node hshape (sub d)
      hk1.1.1 hk1.1.2).2.2
    cases hch : node.children.getD (sub d - minChar).toNat none with
    | none =>
      rw [hch] at hg
      obtain ⟨n1, hn1, hwf1, hspec1⟩ :=
        GammaTrie_newChain_spec minChar maxChar hA1 sub k r (d + 1) hk1.2
      obtain ⟨n, hset, hshape1, hfp, hget, hother⟩ :=
        GammaNode_set_spec minChar maxChar h0 hmax node hshape (sub d) hk1.1.1 hk1.1.2 n1
      have hold : ∀ cs, pathWalk node (sub d :: cs) = none :=
        fun cs => pathWalk_cons_null _ _ _ hg
      refine ⟨n, by simp only [GammaTrie_insert, hg, hn1, Option.some_bind, hset], ?_, ?_⟩
      · intro p nd hp hw
        cases p with
        | nil =>
          simp only [pathWalk, Option.some.injEq] at hw
          subst hw
          exact ⟨hshape1, Nat.zero_le _⟩
        | cons c cs =>
          have hc := (inRange_cons _ _ _ _).1 hp
          by_cases hcd : c = sub d
          · subst hcd
            rw [pathWalk_cons_child _ _ _ _ hget] at hw
            have := hwf1 cs nd hc.2 hw
            exact ⟨this.1, by simp only [List.length_cons]; omega⟩
          · rw [pathWalk_cons_congr _ _ _ _ (hother c hc.1.1 hc.1.2 hcd)] at hw
            exact hwf _ nd hp hw
      · intro p hp
        cases p with
        | nil =>
          constructor
          · simp [pathWalk]
          · simp [posAt, pathWalk, keyFrom, hfp]
        | cons c cs =>
          have hc := (inRange_cons _ _ _ _).1 hp
          by_cases hcd : c = sub d
          · subst hcd
            have h1 := hspec1 cs hc.2
            constructor
            · rw [pathWalk_cons_child _ _ _ _ hget, h1.1, hold]
              simp [keyFrom, List.cons_prefix_cons]
            · have e1 : posAt n (sub d :: cs) = posAt n1 cs := by
                simp only [posAt, pathWalk_cons_child _ _ _ _ hget]
              have e2 : posAt node (sub d :: cs) = [] := by
                simp only [posAt, hold]
              rw [e1, e2, h1.2]
              simp [keyFrom]
          · have e := pathWalk_cons_congr _ _ _ cs (hother c hc.1.1 hc.1.2 hcd)
            constructor
            · rw [e]; simp [keyFrom, List.cons_prefix_cons, hcd]
            · simp [posAt, e, keyFrom, hcd]
    | some ch =>
      rw [hch] at hg
      have hwfc := wellFormed_child minChar maxChar node ch r (sub d) hk1.1.1 hk1.1.2 hwf hg
      obtain ⟨ch1, hch1, hwf1, hspec1⟩ := ih (d + 1) ch hwfc hk1.2 he0 he1
      obtain ⟨n, hset, hshape1, hfp, hget, hother⟩ :=
        GammaNode_set_spec minChar maxChar h0 hmax node hshape (sub d) hk1.1.1 hk1.1.2 ch1
      have hold : ∀ cs, pathWalk node (sub d :: cs) = pathWalk ch cs :=
        fun cs => pathWalk_cons_child _ _ _ _ hg
      refine ⟨n, by simp only [GammaTrie_insert, hg, hch1, Option.some_bind, hset], ?_, ?_⟩
      · intro p nd hp hw
        cases p with
        | nil =>
          simp only [pathWalk, Option.some.injEq] at hw
          subst hw
          exact ⟨hshape1, Nat.zero_le _⟩
        | cons c cs =>
          have hc := (inRange_cons _ _ _ _).1 hp
          by_cases hcd : c = sub d
          · subst hcd
            rw [pathWalk_cons_child _ _ _ _ hget] at hw
            have := hwf1 cs nd hc.2 hw
            exact ⟨this.1, by simp only [List.length_cons]; omega⟩
          · rw [pathWalk_cons_congr _ _ _ _ (hother c hc.1.1 hc.1.2 hcd)] at hw
            exact hwf _ nd hp hw
      · intro p hp
        cases p with
        | nil =>
          constructor
          · simp [pathWalk]
          · simp [posAt, pathWalk, keyFrom, hfp]
        | cons c cs =>
          have hc := (inRange_cons _ _ _ _).1 hp
          by_cases hcd : c = sub d
          · subst hcd
            have h1 := hspec1 cs hc.2
            constructor
            · rw [pathWalk_cons_child _ _ _ _ hget, h1.1, hold]
              simp [keyFrom, List.cons_prefix_cons]
            · have e1 : posAt n (sub d :: cs) = posAt ch1 cs := by
                simp only [posAt, pathWalk_cons_child _ _ _ _ hget]
              have e2 : posAt node (sub d :: cs) = posAt ch cs := by
                simp only [posAt, hold]
              rw [e1, e2, h1.2]
              simp [keyFrom]
          · have e := pathWalk_cons_congr _ _ _ cs (hother c hc.1.1 hc.1.2 hcd)
            constructor
            · rw [e]; simp [keyFrom, List.cons_prefix_cons, hcd]
            · simp [posAt, e, keyFrom, hcd]

theorem keyFrom_eq_map (f : Int → Int) (r : Nat) :
    ∀ d, keyFrom f r d = (List.range r).map (fun (i : Nat) => f (d + (i : Int))) := by
  induction r with
  | zero => intro d; rfl
  | succ r ih =>
    intro d
    rw [List.range_succ_eq_map, List.map_cons, List.map_map]
    simp only [keyFrom, ih (d + 1), Nat.cast_zero, add_zero]
    congr 1
    apply List.map_congr_left
    intro i _
    simp only [Function.comp, Nat.cast_succ]
    congr 1; ring

theorem keyFrom_length (f : Int → Int) (r : Nat) (d : Int) : (keyFrom f r d).length = r := by
  rw [keyFrom_eq_map, List.length_map, List.length_range]

theorem mem_keyFrom (f : Int → Int) (r : Nat) (d c : Int) :
    c ∈ keyFrom f r d ↔ ∃ i : Nat, i < r ∧ f (d + i) = c := by
  rw [keyFrom_eq_map]
  simp [List.mem_map, List.mem_range]

/-- Two sources give the same key when they agree on the indices read. -/
theorem keyFrom_eq_iff (f g : Int → Int) (r : Nat) (d e : Int) :
    keyFrom f r d = keyFrom g r e ↔ ∀ i : Nat, i < r → f (d + i) = g (e + i) := by
  induction r generalizing d e with
  | zero => simp [keyFrom]
  | succ r ih =>
    simp only [keyFrom, List.cons.injEq, ih]
    constructor
    · rintro ⟨h1, h2⟩ i hi
      cases i with
      | zero => simpa using h1
      | succ i =>
        have := h2 i (by omega)
        push_cast
        rw [show d + ((i : Int) + 1) = d + 1 + i by ring, show e + ((i : Int) + 1) = e + 1 + i by ring]
        exact this
    · intro h
      refine ⟨by simpa using h 0 (by omega), fun i hi => ?_⟩
      have := h (i + 1) (by omega)
      push_cast at this
      rw [show d + ((i : Int) + 1) = d + 1 + i by ring,
        show e + ((i : Int) + 1) = e + 1 + i by ring] at this
      exact this

/-- A counted loop is the left fold of its body over `0, 1, ..., n - 1`. -/
theorem forLoop_eq_foldl {σ : Type} (body : Nat → σ → σ) (n : Nat) (s : σ) :
    forLoop n body s = (List.range n).foldl (fun t i => body i t) s := by
  induction n with
  | zero => rfl
  | succ n ih =>
    rw [List.range_succ, List.foldl_append]
    simp only [forLoop, ih, List.foldl_cons, List.foldl_nil]

/-- `GammaTrie_init` is the loop over the offsets in the order `0, 1, ..., m - l`. -/
theorem GammaTrie_init_eq_initOrder (str : Mem) (m l minChar maxChar : Int) :
    GammaTrie_init str m l minChar maxChar =
      (GammaTrie_initOrder str l minChar maxChar (List.range (m - l + 1).toNat)).map
        (fun root => ⟨root, l, minChar, maxChar⟩) := by
  unfold GammaTrie_init GammaTrie_initOrder
  rw [forLoop_eq_foldl]

/-- The trie after the insertion of the offsets `ks`, in this order, each with
its factor of length `l`: the nodes are the prefixes of the factors, and the
node of a word holds the offsets of `ks` whose factor is the word, in the
order of `ks`. -/
theorem GammaTrie_initOrder_spec (minChar maxChar : Int) (hA : validAlphabet minChar maxChar)
    (str : Mem) (l : Int) (hl : 1 ≤ l) (ks : List Nat) :
    (∀ k ∈ ks, inRange minChar maxChar (factorAt str l.toNat k) ∧
      0 ≤ toChar (str ((k : Int) + l)) ∧ toChar (str ((k : Int) + l)) ≤ maxChar) →
    ∃ root, GammaTrie_initOrder str l minChar maxChar ks = some root ∧
      root.wellFormed minChar maxChar l.toNat ∧
      ∀ p, inRange minChar maxChar p →
        ((pathWalk root p).isSome ↔ (p = [] ∨ ∃ k ∈ ks, p <+: factorAt str l.toNat k)) ∧
        posAt root p =
          (ks.filter (fun (k : Nat) => factorAt str l.toNat k = p)).map (fun (k : Nat) => (k : Int)) := by
  have hA1 := hA
  obtain ⟨h0, hle, hmax⟩ := hA
  have hinit := GammaNode_init_shaped minChar maxChar h0 hle hmax
  induction ks using List.reverseRecOn with
  | nil =>
    intro _
    have hnull : ∀ c cs, minChar ≤ c → c ≤ maxChar →
        pathWalk (GammaNode_init minChar maxChar) (c :: cs) = none :=
      fun c cs h1 h2 => pathWalk_cons_null _ _ _
        (GammaNode_init_get minChar maxChar h0 hle hmax c h1 h2)
    refine ⟨GammaNode_init minChar maxChar, rfl, ?_, ?_⟩
    · intro p nd hp hw
      cases p with
      | nil =>
        simp only [pathWalk, Option.some.injEq] at hw
        subst hw
        exact ⟨hinit, Nat.zero_le _⟩
      | cons c cs =>
        have hc := ((inRange_cons _ _ _ _).1 hp).1
        rw [hnull c cs hc.1 hc.2] at hw
        cases hw
    · intro p hp
      cases p with
      | nil =>
        constructor
        · simp [pathWalk]
        · simp [posAt, pathWalk]
          rfl
      | cons c cs =>
        have hc := ((inRange_cons _ _ _ _).1 hp).1
        constructor
        · simp [hnull c cs hc.1 hc.2]
        · simp [posAt, hnull c cs hc.1 hc.2]
  | append_singleton ks k ih =>
    intro hks
    obtain ⟨root, hroot, hwf, hspec⟩ := ih (fun k1 hk1 => hks k1 (List.mem_append_left _ hk1))
    have hk := hks k (List.mem_append_right _ (List.mem_singleton_self k))
    have hkey : factorAt str l.toNat k = keyFrom (fun i => toChar (str ((k : Int) + i))) l.toNat 0 :=
      rfl
    obtain ⟨root1, hroot1, hwf1, hspec1⟩ :=
      GammaTrie_insert_spec minChar maxChar hA1 (fun i => toChar (str ((k : Int) + i))) k l.toNat
        0 root hwf (by rw [← hkey]; exact hk.1)
        (by simp only [zero_add, Int.toNat_of_nonneg (by omega : 0 ≤ l)]; exact hk.2.1)
        (by simp only [zero_add, Int.toNat_of_nonneg (by omega : 0 ≤ l)]; exact hk.2.2)
    refine ⟨root1, ?_, hwf1, ?_⟩
    · unfold GammaTrie_initOrder at hroot ⊢
      rw [List.foldl_append, hroot]
      simp only [List.foldl_cons, List.foldl_nil, Option.some_bind]
      exact hroot1
    · intro p hp
      obtain ⟨e1, e2⟩ := hspec1 p hp
      obtain ⟨e3, e4⟩ := hspec p hp
      constructor
      · rw [e1, e3, ← hkey]
        simp only [List.mem_append, List.mem_singleton]
        constructor
        · rintro ((h | ⟨k1, hk1, hpre⟩) | hpre)
          · exact Or.inl h
          · exact Or.inr ⟨k1, Or.inl hk1, hpre⟩
          · exact Or.inr ⟨k, Or.inr rfl, hpre⟩
        · rintro (h | ⟨k1, hk1 | hk1, hpre⟩)
          · exact Or.inl (Or.inl h)
          · exact Or.inl (Or.inr ⟨k1, hk1, hpre⟩)
          · subst hk1; exact Or.inr hpre
      · rw [e2, e4, ← hkey, List.filter_append, List.map_append]
        congr 1
        by_cases hpk : p = factorAt str l.toNat k
        · rw [if_pos hpk]
          simp [List.filter_cons, hpk]
        · rw [if_neg hpk]
          have : ¬ factorAt str l.toNat k = p := fun h => hpk h.symm
          simp [List.filter_cons, this]

theorem toChar_small (b : Nat) (h : (b : Int) ≤ 127) : toChar b = b := by
  unfold toChar
  rw [if_pos (by omega)]

/-- A buffer whose bytes at `[0, m)` are symbols of the alphabet, followed by
a byte that is not above `maxChar` (a null terminator for instance), gives
factors of the alphabet, and the symbol read after each factor is harmless. -/
theorem factors_inRange (minChar maxChar : Int) (hA : validAlphabet minChar maxChar)
    (x : Mem) (m l : Int) (hl : 1 ≤ l)
    (hx : ∀ i, 0 ≤ i → i < m → minChar ≤ (x i : Int) ∧ (x i : Int) ≤ maxChar)
    (hterm : (x m : Int) ≤ maxChar) (k : Nat) (hk : k < (m - l + 1).toNat) :
    inRange minChar maxChar (factorAt x l.toNat k) ∧
    0 ≤ toChar (x ((k : Int) + l)) ∧ toChar (x ((k : Int) + l)) ≤ maxChar := by
  obtain ⟨h0, hle, hmax⟩ := hA
  constructor
  · intro c hc
    unfold factorAt at hc
    rw [mem_keyFrom] at hc
    obtain ⟨i, hi, rfl⟩ := hc
    have := hx ((k : Int) + (0 + (i : Int))) (by omega) (by omega)
    rw [toChar_small _ (by omega)]
    exact this
  · by_cases hlast : (k : Int) + l = m
    · rw [hlast, toChar_small _ (by omega)]
      exact ⟨by omega, hterm⟩
    · have := hx ((k : Int) + l) (by omega) (by omega)
      rw [toChar_small _ (by omega)]
      exact ⟨by omega, this.2⟩

theorem GammaMatcher_walk_null (ty : Int → Int) (r : Nat) (k : Int) :
    GammaMatcher_walk ty r k none = some none := by
  cases r <;> rfl

/-- On a well-formed trie the walk of `GammaMatcher_search` along symbols of
the alphabet meets no access outside an array and ends where `pathWalk` ends. -/
theorem GammaMatcher_walk_eq_pathWalk (minChar maxChar : Int)
    (hA : validAlphabet minChar maxChar) (ty : Int → Int) (r : Nat) :
    ∀ (k0 : Int) (node : GammaNode) (R : Nat), node.wellFormed minChar maxChar R →
      inRange minChar maxChar (keyFrom ty r k0) →
      GammaMatcher_walk ty r k0 (some node) = some (pathWalk node (keyFrom ty r k0)) := by
  obtain ⟨h0, hle, hmax⟩ := hA
  induction r with
  | zero => intro k0 node R _ _; rfl
  | succ r ih =>
    intro k0 node R hwf hk
    have hk1 := (inRange_cons _ _ _ _).1 hk
    have hshape := (hwf [] node (by intro c hc; cases hc) rfl).1
    have hg := (GammaNode_get_inRange minChar maxChar h0 hmax node hshape (ty k0)
      hk1.1.1 hk1.1.2).2.2
    cases hch : node.children.getD (ty k0 - minChar).toNat none with
    | none =>
      rw [hch] at hg
      simp only [GammaMatcher_walk, hg, Option.some_bind, GammaMatcher_walk_null, keyFrom,
        pathWalk_cons_null _ _ _ hg]
    | some ch =>
      rw [hch] at hg
      have hlen := (hwf [ty k0] ch (by intro c hc; simp at hc; subst hc; exact hk1.1)
        (by rw [pathWalk_cons_child _ _ _ _ hg]; rfl)).2
      obtain ⟨R1, rfl⟩ : ∃ R1, R = R1 + 1 := ⟨R - 1, by simp at hlen; omega⟩
      have hwfc := wellFormed_child minChar maxChar node ch R1 (ty k0) hk1.1.1 hk1.1.2 hwf hg
      simp only [GammaMatcher_walk, hg, Option.some_bind, keyFrom,
        pathWalk_cons_child _ _ _ _ hg]
      exact ih (k0 + 1) ch R1 hwfc hk1.2

/-- The factor of the pattern at offset `k` is the word `w` exactly when the
bytes agree. -/
theorem factorAt_eq_iff (maxChar : Int) (hmax : maxChar ≤ 127) (x : Mem) (l : Int) (hl : 0 ≤ l)
    (k : Int) (hx : ∀ i, 0 ≤ i → i < l → (x (k + i) : Int) ≤ maxChar) (w : Int → Int) :
    factorAt x l.toNat k = keyFrom w l.toNat 0 ↔
      ∀ i, 0 ≤ i → i < l → (x (k + i) : Int) = w i := by
  unfold factorAt
  rw [keyFrom_eq_iff]
  constructor
  · intro h i h0 h1
    have := h i.toNat (by omega)
    simp only [zero_add, Int.toNat_of_nonneg h0] at this
    rw [toChar_small _ (by have := hx i h0 h1; omega)] at this
    exact this
  · intro h i hi
    simp only [zero_add]
    rw [toChar_small _ (by have := hx i (by omega) (by omega); omega)]
    exact h i (by omega) (by omega)

/-- The trie that `GammaTrie_init` builds for a pattern over the alphabet
(with a byte not above `maxChar` after it): the call returns, the trie is
well-formed, and the node of a word holds the offsets `0 ≤ k ≤ m - l` at which
the word is the factor of the pattern, in ascending order. -/
theorem GammaTrie_init_spec (minChar maxChar : Int) (hA : validAlphabet minChar maxChar)
    (x : Mem) (m l : Int) (hl : 1 ≤ l)
    (hx : ∀ i, 0 ≤ i → i < m → minChar ≤ (x i : Int) ∧ (x i : Int) ≤ maxChar)
    (hterm : (x m : Int) ≤ maxChar) :
    ∃ root, GammaTrie_init x m l minChar maxChar = some ⟨root, l, minChar, maxChar⟩ ∧
      root.wellFormed minChar maxChar l.toNat ∧
      ∀ p, inRange minChar maxChar p →
        posAt root p =
          ((List.range (m - l + 1).toNat).filter
            (fun (k : Nat) => factorAt x l.toNat k = p)).map (fun (k : Nat) => (k : Int)) := by
  obtain ⟨root, hroot, hwf, hspec⟩ :=
    GammaTrie_initOrder_spec minChar maxChar hA x l hl (List.range (m - l + 1).toNat)
      (fun k hk => factors_inRange minChar maxChar hA x m l hl hx hterm k (List.mem_range.1 hk))
  refine ⟨root, ?_, hwf, fun p hp => (hspec p hp).2⟩
  rw [GammaTrie_init_eq_initOrder, hroot]
  rfl

/-- Membership in the position list that `GammaTrie_init_spec` describes. -/
theorem mem_factor_offsets (maxChar : Int) (hmax : maxChar ≤ 127) (x : Mem) (m l : Int)
    (hl : 1 ≤ l) (hx : ∀ i, 0 ≤ i → i < m → (x i : Int) ≤ maxChar) (w : Int → Int) (k : Int) :
    k ∈ ((List.range (m - l + 1).toNat).filter
        (fun (k : Nat) => factorAt x l.toNat k = keyFrom w l.toNat 0)).map
          (fun (k : Nat) => (k : Int)) ↔
      (0 ≤ k ∧ k ≤ m - l ∧ ∀ i, 0 ≤ i → i < l → (x (k + i) : Int) = w i) := by
  simp only [List.mem_map, List.mem_filter, List.mem_range, decide_eq_true_eq]
  constructor
  · rintro ⟨k1, ⟨hk1, hf⟩, rfl⟩
    refine ⟨by omega, by omega, ?_⟩
    exact (factorAt_eq_iff maxChar hmax x l (by omega) k1
      (fun i h0 h1 => hx _ (by omega) (by omega)) w).1 hf
  · rintro ⟨h0, h1, h2⟩
    refine ⟨k.toNat, ⟨by omega, ?_⟩, by omega⟩
    rw [Int.toNat_of_nonneg h0]
    exact (factorAt_eq_iff maxChar hmax x l (by omega) k
      (fun i h0 h1 => hx _ (by omega) (by omega)) w).2 h2

/-- The position list that `GammaTrie_init_spec` describes is strictly
ascending. -/
theorem factor_offsets_sorted (x : Mem) (m l : Int) (p : List Int) :
    (((List.range (m - l + 1).toNat).filter
        (fun (k : Nat) => factorAt x l.toNat k = p)).map
          (fun (k : Nat) => (k : Int))).Pairwise (fun a b => a < b) := by
  rw [List.pairwise_map]
  apply List.Pairwise.imp _ ((List.pairwise_lt_range _).filter _)
  intro a b hab
  exact Int.ofNat_lt.2 hab

/-- Claim C17, amended: for a pattern `x` of length `m` with symbols in
`[minChar, maxChar]`, where `0 ≤ minChar ≤ maxChar ≤ 127` and the byte `x[m]`
that the build reads after the last factor is not above `maxChar` (a null
terminator for instance), and for `l ≥ 1` (in particular `1 ≤ l ≤ m`),
`GammaTrie_init` returns a trie in which the walk of a length-`l` word `w` over
the alphabet reaches a node with a non-empty position list if and only if `w`
is a factor of `x`; the list of the node reached holds exactly the offsets `k`
in `[0, m - l]` with `x[k .. k+l) = w`, strictly ascending (hence each once). -/
theorem GammaTrie_init_content (minChar maxChar : Int) (hA : validAlphabet minChar maxChar)
    (x : Mem) (m l : Int) (hl : 1 ≤ l)
    (hx : ∀ i, 0 ≤ i → i < m → minChar ≤ (x i : Int) ∧ (x i : Int) ≤ maxChar)
    (hterm : (x m : Int) ≤ maxChar)
    (w : Int → Int) (hw : ∀ i, 0 ≤ i → i < l → minChar ≤ w i ∧ w i ≤ maxChar) :
    ∃ trie res, GammaTrie_init x m l minChar maxChar = some trie ∧
      GammaMatcher_walk w l.toNat 0 (some trie.root) = some res ∧
      ((∃ nd, res = some nd ∧ nd.firstPos ≠ []) ↔
        ∃ k : Int, 0 ≤ k ∧ k ≤ m - l ∧ ∀ i, 0 ≤ i → i < l → (x (k + i) : Int) = w i) ∧
      ∀ nd, res = some nd →
        (∀ k : Int, k ∈ nd.firstPos ↔
          (0 ≤ k ∧ k ≤ m - l ∧ ∀ i, 0 ≤ i → i < l → (x (k + i) : Int) = w i)) ∧
        nd.firstPos.Pairwise (fun a b => a < b) := by
  obtain ⟨root, hroot, hwf, hpos⟩ := GammaTrie_init_spec minChar maxChar hA x m l hl hx hterm
  have hW : inRange minChar maxChar (keyFrom w l.toNat 0) := by
    intro c hc
    rw [mem_keyFrom] at hc
    obtain ⟨i, hi, rfl⟩ := hc
    exact hw _ (by omega) (by omega)
  have hwalk := GammaMatcher_walk_eq_pathWalk minChar maxChar hA w l.toNat 0 root _ hwf hW
  have hP := hpos _ hW
  have hmem := mem_factor_offsets maxChar hA.2.2 x m l hl (fun i h0 h1 => (hx i h0 h1).2) w
  refine ⟨_, _, hroot, hwalk, ?_, ?_⟩
  · constructor
    · rintro ⟨nd, hnd, hne⟩
      have e : posAt root (keyFrom w l.toNat 0) = nd.firstPos := by
        simp only [posAt, hnd]
      obtain ⟨k, hk⟩ := List.exists_mem_of_ne_nil _ hne
      rw [← e, hP] at hk
      exact ⟨k, (hmem k).1 hk⟩
    · rintro ⟨k, hk⟩
      have hk1 := (hmem k).2 hk
      rw [← hP] at hk1
      cases hres : pathWalk root (keyFrom w l.toNat 0) with
      | none => simp [posAt, hres] at hk1
      | some nd =>
        refine ⟨nd, rfl, ?_⟩
        simp only [posAt, hres] at hk1
        exact List.ne_nil_of_mem hk1
  · intro nd hnd
    have e : posAt root (keyFrom w l.toNat 0) = nd.firstPos := by
      simp only [posAt, hnd]
    rw [← e, hP]
    exact ⟨hmem, factor_offsets_sorted x m l _⟩

theorem GammaTrie_init_content_witness :
    (validAlphabet 0 1 ∧ (1 : Int) ≤ 1 ∧
      (∀ i : Int, 0 ≤ i → i < 2 → (0 : Int) ≤ (memOf [0, 1] 0 i : Int) ∧
        (memOf [0, 1] 0 i : Int) ≤ 1) ∧
      (memOf [0, 1] 0 2 : Int) ≤ 1 ∧
      (∀ i : Int, 0 ≤ i → i < 1 → (0 : Int) ≤ (fun _ => (1 : Int)) i ∧
        (fun _ => (1 : Int)) i ≤ 1)) ∧
    ∃ trie res, GammaTrie_init (memOf [0, 1] 0) 2 1 0 1 = some trie ∧
      GammaMatcher_walk (fun _ => 1) (1 : Int).toNat 0 (some trie.root) = some res ∧
      ((∃ nd, res = some nd ∧ nd.firstPos ≠ []) ↔
        ∃ k : Int, 0 ≤ k ∧ k ≤ 2 - 1 ∧
          ∀ i, 0 ≤ i → i < 1 → (memOf [0, 1] 0 (k + i) : Int) = (fun _ => (1 : Int)) i) ∧
      ∀ nd, res = some nd →
        (∀ k : Int, k ∈ nd.firstPos ↔
          (0 ≤ k ∧ k ≤ 2 - 1 ∧
            ∀ i, 0 ≤ i → i < 1 → (memOf [0, 1] 0 (k + i) : Int) = (fun _ => (1 : Int)) i)) ∧
        nd.firstPos.Pairwise (fun a b => a < b) :=
  ⟨⟨⟨by decide, by decide, by decide⟩, by decide,
      fun i h0 h1 => by
        have h := memOf_lt [0, 1] 0 2 (by decide) (by decide) i
        omega,
      by decide, by intro i _ _; simp⟩,
   GammaTrie_init_content 0 1 ⟨by decide, by decide, by decide⟩ (memOf [0, 1] 0) 2 1
     (by decide)
     (fun i h0 h1 => by
        have h := memOf_lt [0, 1] 0 2 (by decide) (by decide) i
        omega)
     (by decide) (fun _ => 1) (by intro i _ _; simp)⟩

end gammaskip

/-- Claim C15 fails on the code: for the pattern `0 0` and the text `0 0`
(`m = n = 2`) `search` of gammaskip.c returns `2`, not `1`: the factor `0`
repeats in the pattern, the window at `j = 1` yields the candidates `1` and
`0`, and the candidate `1 > n - m` passes `strncmp`, which stops at the shared
null byte `x[0] = y[1] = 0`, whatever byte follows the text. -/
theorem gammaskip_search_pattern_is_text :
    gammaskip.search (memOf [0, 0] 0) 2 (memOf [0, 0] 2) 2 = some 2 ∧
    naiveCount (memOf [0, 0] 0) 2 (memOf [0, 0] 2) 2 = 1 := by
  decide

/-- Claim C16 fails on the code: for the pattern `0 1` and the text `0 0`,
`GammaMatcher_attempt(matcher, 0)` returns true although `x[1] = 1` differs
from `y[1] = 0`: `strncmp` stops after the null byte at index `0`. -/
theorem GammaMatcher_attempt_stops_at_null :
    gammaskip.GammaMatcher_attempt
      (gammaskip.GammaMatcher_init (memOf [0, 1] 0) (memOf [0, 0] 0) 2 2 0 1) 0 = true ∧
    memOf [0, 1] 0 1 ≠ memOf [0, 0] 0 (0 + 1) := by
  decide

/-- Claim C17 as stated fails on the code: for the alphabet `[-1, 0]` of `char`
values and the pattern `0 0` (`m = 2`, `l = 1`), whose symbols lie in the
alphabet, `GammaTrie_init` returns a trie in which the walk of the word `0`, a
factor of the pattern, reaches no node: `arrayOffset` holds `minChar = -1` as
a `size_t`, so the unsigned test `c >= arrayOffset` of `GammaNode_get` fails
for the symbol `0` and the lookup returns `NULL`. -/
theorem GammaTrie_init_straddling_alphabet :
    ∃ trie, gammaskip.GammaTrie_init (memOf [0, 0] 0) 2 1 (-1) 0 = some trie ∧
      gammaskip.GammaMatcher_walk (fun _ => 0) (1 : Int).toNat 0 (some trie.root) = some none ∧
      (∀ i : Int, 0 ≤ i → i < 2 →
        (-1 : Int) ≤ (memOf [0, 0] 0 i : Int) ∧ (memOf [0, 0] 0 i : Int) ≤ 0) ∧
      (∀ i : Int, 0 ≤ i → i < 1 → (memOf [0, 0] 0 (0 + i) : Int) = (fun _ => (0 : Int)) i) :=
  ⟨_, rfl, rfl, by intro i h0 h1; interval_cases i <;> decide,
    by intro i h0 h1; interval_cases i; decide⟩

namespace gammaskip

/-- Two successive floor divisions of a non-negative integer are one floor
division by the product. -/
theorem ediv_ediv_nonneg (a b c : Int) (ha : 0 ≤ a) (hb : 0 ≤ b) (hc : 0 ≤ c) :
    a / b / c = a / (b * c) := by
  obtain ⟨a, rfl⟩ := Int.eq_ofNat_of_zero_le ha
  obtain ⟨b, rfl⟩ := Int.eq_ofNat_of_zero_le hb
  obtain ⟨c, rfl⟩ := Int.eq_ofNat_of_zero_le hc
  norm_cast
  exact Nat.div_div_eq_div_mul a b c

/-- The loop of `logarithm` returns after `e` divisions, where `e` is the
first exponent with `tmp / base ^ e ≤ base`. -/
theorem logarithmLoop_least (fuel : Nat) :
    ∀ (tmp base result : Int), 2 ≤ base → 0 ≤ tmp → tmp ≤ fuel →
      ∃ e : Nat, logarithmLoop fuel tmp base result = some (result + e) ∧
        tmp / base ^ e ≤ base ∧ ∀ j : Nat, j < e → base < tmp / base ^ j := by
  induction fuel with
  | zero =>
    intro tmp base result hb h0 h1
    refine ⟨0, ?_, ?_, fun j hj => by omega⟩
    · unfold logarithmLoop
      rw [if_neg (by push_cast at h1; omega)]
      simp
    · simp only [pow_zero, Int.ediv_one]
      push_cast at h1; omega
  | succ f ih =>
    intro tmp base result hb h0 h1
    unfold logarithmLoop
    by_cases hgt : tmp > base
    · rw [if_pos hgt]
      have hq : Int.tdiv tmp base = tmp / base :=
        Int.tdiv_eq_ediv (by omega) (by omega)
      rw [hq]
      have hlo : 0 ≤ tmp / base := Int.ediv_nonneg h0 (by omega)
      have hhi : tmp / base < tmp :=
        Int.ediv_lt_of_lt_mul (by omega) (by nlinarith)
      obtain ⟨e, he, h2, h3⟩ := ih (tmp / base) base (result + 1) hb hlo
        (by push_cast at h1; omega)
      have hdiv : ∀ j : Nat, tmp / base ^ (j + 1) = tmp / base / base ^ j := by
        intro j
        rw [ediv_ediv_nonneg tmp base (base ^ j) h0 (by omega) (pow_nonneg (by omega) j),
          pow_succ, mul_comm]
      refine ⟨e + 1, ?_, ?_, ?_⟩
      · rw [he]; congr 1; push_cast; ring
      · rw [hdiv]; exact h2
      · intro j hj
        cases j with
        | zero => simpa using hgt
        | succ j => rw [hdiv]; exact h3 j (by omega)
    · rw [if_neg hgt]
      refine ⟨0, by simp, ?_, fun j hj => by omega⟩
      simp only [pow_zero, Int.ediv_one]
      omega

/-- For a positive divisor, `floor(m / P) ≤ s` says the same as `m < (s + 1) * P`. -/
theorem ediv_le_iff_lt_succ_mul (m s P : Int) (hP : 0 < P) :
    m / P ≤ s ↔ m < (s + 1) * P := by
  rw [← Int.lt_add_one_iff, Int.ediv_lt_iff_lt_mul hP]

/-- Claim C23: for every `m ≥ 1` and `sigma ≥ 2`, `logarithm(m, sigma)` returns
the least integer `l ≥ 1` with `m < (sigma + 1) * sigma ^ (l - 1)`, which is also
the least `l ≥ 1` with `floor(m / sigma ^ (l - 1)) ≤ sigma`. -/
theorem logarithm_least (m sigma : Int) (hm : 1 ≤ m) (hs : 2 ≤ sigma) :
    ∃ l, logarithm m sigma = some l ∧ 1 ≤ l ∧
      m < (sigma + 1) * sigma ^ (l - 1).toNat ∧
      (∀ l1, 1 ≤ l1 → l1 < l → ¬ m < (sigma + 1) * sigma ^ (l1 - 1).toNat) ∧
      m / sigma ^ (l - 1).toNat ≤ sigma ∧
      (∀ l1, 1 ≤ l1 → l1 < l → ¬ m / sigma ^ (l1 - 1).toNat ≤ sigma) := by
  obtain ⟨e, he, h1, h2⟩ := logarithmLoop_least m.toNat m sigma 1 hs (by omega) (by omega)
  have hpos : ∀ j : Nat, 0 < sigma ^ j := fun j => pow_pos (by omega) j
  have hl : (1 + (e : Int) - 1).toNat = e := by omega
  have hlow : ∀ l1 : Int, 1 ≤ l1 → l1 < 1 + (e : Int) → ¬ m / sigma ^ (l1 - 1).toNat ≤ sigma := by
    intro l1 h3 h4
    have := h2 (l1 - 1).toNat (by omega)
    omega
  refine ⟨1 + e, ?_, by omega, ?_, ?_, ?_, hlow⟩
  · unfold logarithm
    rw [if_pos (by omega)]
    exact he
  · rw [hl, ← ediv_le_iff_lt_succ_mul m sigma _ (hpos e)]
    exact h1
  · intro l1 h3 h4
    rw [← ediv_le_iff_lt_succ_mul m sigma _ (hpos _)]
    exact hlow l1 h3 h4
  · rw [hl]; exact h1

theorem logarithm_least_witness :
    ((1 : Int) ≤ 6 ∧ (2 : Int) ≤ 2) ∧
    ∃ l, logarithm 6 2 = some l ∧ 1 ≤ l ∧
      (6 : Int) < (2 + 1) * 2 ^ (l - 1).toNat ∧
      (∀ l1, 1 ≤ l1 → l1 < l → ¬ (6 : Int) < (2 + 1) * 2 ^ (l1 - 1).toNat) ∧
      (6 : Int) / 2 ^ (l - 1).toNat ≤ 2 ∧
      (∀ l1, 1 ≤ l1 → l1 < l → ¬ (6 : Int) / 2 ^ (l1 - 1).toNat ≤ 2) :=
  ⟨by decide, logarithm_least 6 2 (by decide) (by decide)⟩

end gammaskip

/-! ### The cells of the shift table -/

namespace tvsbs

/-- The loop over the adjacent pairs leaves a cell alone when none of the
pairs it goes through is the pair of the cell. -/
theorem pairFill_none (x : Mem) (m : Int) (k : Nat) (t : Table) (a b : Nat)
    (h : ∀ i : Nat, i < k → ¬ (x i = a ∧ x ((i : Int) + 1) = b)) :
    forLoop k (fun i t => setCell t (x i) (x ((i : Int) + 1)) (m - i)) t a b = t a b := by
  apply forLoop_invariant (fun t1 : Table => t1 a b = t a b)
  · rfl
  · intro i t1 hi ht
    simp only [setCell]
    rw [if_neg (fun hc => h i hi ⟨hc.1.symm, hc.2.symm⟩)]
    exact ht

/-- The loop over the adjacent pairs leaves `m - i0` in the cell of a pair
whose last position among those gone through is `i0`. -/
theorem pairFill_last (x : Mem) (m : Int) (k : Nat) (t : Table) (a b : Nat) (i0 : Nat)
    (hi0 : i0 < k) (ha : x i0 = a) (hb : x ((i0 : Int) + 1) = b)
    (h : ∀ j : Nat, i0 < j → j < k → ¬ (x j = a ∧ x ((j : Int) + 1) = b)) :
    forLoop k (fun i t => setCell t (x i) (x ((i : Int) + 1)) (m - i)) t a b = m - i0 := by
  apply forLoop_establish (fun t1 : Table => t1 a b = m - i0) _ k i0 t hi0
  · intro t1
    simp only [setCell]
    rw [if_pos ⟨ha.symm, hb.symm⟩]
  · intro j t1 h1 h2 ht
    simp only [setCell]
    rw [if_neg (fun hc => h j h1 h2 ⟨hc.1.symm, hc.2.symm⟩)]
    exact ht

/-- Claim C21: for a pattern `x` of length `m ≥ 2` and symbols `a`, `b` (below
`SIGMA`), the table filled by `TVSBSpreBrBc` holds in the cell of `a b`:
`1` if `a = x[m-1]`; otherwise `m - i` for the largest `i` in `[0, m-2]` with
`x[i] = a` and `x[i+1] = b`, if there is one; otherwise `m + 1` if `b = x[0]`;
otherwise `m + 2`.  The value is at most the value of every rule that applies
(it is their minimum). -/
theorem TVSBSpreBrBc_cell (SIGMA : Nat) (x : Mem) (m : Int) (t0 : Table) (hm : 2 ≤ m)
    (a b : Nat) (ha : a < SIGMA) (hb : b < SIGMA) :
    (a = x (m - 1) → TVSBSpreBrBc SIGMA x m t0 a b = 1) ∧
    (a ≠ x (m - 1) → ∀ i : Int, 0 ≤ i → i ≤ m - 2 → x i = a → x (i + 1) = b →
      (∀ j : Int, i < j → j ≤ m - 2 → ¬ (x j = a ∧ x (j + 1) = b)) →
      TVSBSpreBrBc SIGMA x m t0 a b = m - i) ∧
    (a ≠ x (m - 1) → (∀ i : Int, 0 ≤ i → i ≤ m - 2 → ¬ (x i = a ∧ x (i + 1) = b)) →
      b = x 0 → TVSBSpreBrBc SIGMA x m t0 a b = m + 1) ∧
    (a ≠ x (m - 1) → (∀ i : Int, 0 ≤ i → i ≤ m - 2 → ¬ (x i = a ∧ x (i + 1) = b)) →
      b ≠ x 0 → TVSBSpreBrBc SIGMA x m t0 a b = m + 2) ∧
    (TVSBSpreBrBc SIGMA x m t0 a b ≤ m + 2 ∧
      (b = x 0 → TVSBSpreBrBc SIGMA x m t0 a b ≤ m + 1) ∧
      (∀ i : Int, 0 ≤ i → i ≤ m - 2 → x i = a → x (i + 1) = b →
        TVSBSpreBrBc SIGMA x m t0 a b ≤ m - i) ∧
      (a = x (m - 1) → TVSBSpreBrBc SIGMA x m t0 a b ≤ 1)) := by
  have hrow : a ≠ x (m - 1) → TVSBSpreBrBc SIGMA x m t0 a b =
      forLoop (m - 1).toNat (fun i t => setCell t (x i) (x ((i : Int) + 1)) (m - i))
        (forLoop SIGMA (fun a t => setCell t a (x 0) (m + 1))
          (forLoop SIGMA (fun a t => forLoop SIGMA (fun b t => setCell t a b (m + 2)) t) t0))
        a b := by
    intro hne
    unfold TVSBSpreBrBc
    simp only [rowFill_apply]
    rw [if_neg (fun hc => hne hc.1)]
  have hnone : (∀ i : Int, 0 ≤ i → i ≤ m - 2 → ¬ (x i = a ∧ x (i + 1) = b)) →
      ∀ i : Nat, i < (m - 1).toNat → ¬ (x i = a ∧ x ((i : Int) + 1) = b) :=
    fun h i hi => h i (by omega) (by omega)
  refine ⟨?_, ?_, ?_, ?_, ?_⟩
  · intro h
    rw [h]
    exact TVSBSpreBrBc_last_row SIGMA x m t0 b hb
  · intro hne i h0 h1 hxa hxb hlast
    rw [hrow hne]
    have key := pairFill_last x m (m - 1).toNat
      (forLoop SIGMA (fun a t => setCell t a (x 0) (m + 1))
        (forLoop SIGMA (fun a t => forLoop SIGMA (fun b t => setCell t a b (m + 2)) t) t0))
      a b i.toNat (by omega)
      (by rw [Int.toNat_of_nonneg h0]; exact hxa)
      (by rw [Int.toNat_of_nonneg h0]; exact hxb)
      (fun j hj1 hj2 => hlast j (by omega) (by omega))
    rw [key, Int.toNat_of_nonneg h0]
  · intro hne hno hb0
    rw [hrow hne, pairFill_none x m _ _ a b (hnone hno), colFill_apply, if_pos ⟨ha, hb0⟩]
  · intro hne hno hb0
    rw [hrow hne, pairFill_none x m _ _ a b (hnone hno), colFill_apply,
      if_neg (fun hc => hb0 hc.2), initFill_apply, if_pos ⟨ha, hb⟩]
  · refine ⟨(TVSBSpreBrBc_cell_range SIGMA x m t0 hm a b ha hb).2, ?_, ?_, ?_⟩
    · intro h
      rw [h]
      exact TVSBSpreBrBc_first_col SIGMA x m t0 hm a ha
    · intro i h0 h1 hxa hxb
      rw [← hxa, ← hxb]
      exact TVSBSpreBrBc_pair SIGMA x m t0 i h0 h1
    · intro h
      rw [h, TVSBSpreBrBc_last_row SIGMA x m t0 b hb]

theorem TVSBSpreBrBc_cell_witness :
    ((2 : Int) ≤ 3 ∧ 1 < 2 ∧ 0 < 2) ∧
    (1 = memOf [0, 1, 1] 0 (3 - 1) → TVSBSpreBrBc 2 (memOf [0, 1, 1] 0) 3 (fun _ _ => 0) 1 0 = 1) :=
  ⟨by decide,
   (TVSBSpreBrBc_cell 2 (memOf [0, 1, 1] 0) 3 (fun _ _ => 0) (by decide) 1 0
     (by decide) (by decide)).1⟩

end tvsbs

/-! ### The positions that the four-cursor scan counts -/

namespace tvsbs

/-- `memcmp` returns `0` exactly when the `m` bytes agree. -/
theorem memcmpEq_iff (x y : Mem) (s m : Int) :
    memcmpEq x y s m = true ↔ ∀ i : Int, 0 ≤ i → i < m → x i = y (s + i) := by
  unfold memcmpEq
  rw [List.all_eq_true]
  constructor
  · intro h i h0 h1
    have := h i.toNat (List.mem_range.2 (by omega))
    rw [Int.toNat_of_nonneg h0] at this
    simpa using this
  · intro h i hi
    have := h i (by omega) (by have := List.mem_range.1 hi; omega)
    simpa using this

/-- One verification either counts its position (guard true, bytes equal,
marker moved to the position) or changes neither marker nor counter. -/
theorem verify_cases (x y : Mem) (m : Int) (guard : Bool) (s own count : Int) :
    (guard = true ∧ memcmpEq x y s m = true ∧ (verify x y m guard s own count).1 = s ∧
      (verify x y m guard s own count).2.1 = count + 1 ∧ verifyHit x y m guard s = [s]) ∨
    ((verify x y m guard s own count).1 = own ∧
      (verify x y m guard s own count).2.1 = count ∧ verifyHit x y m guard s = []) := by
  unfold verify verifyHit
  cases guard with
  | false => right; simp
  | true =>
    cases h : memcmpEq x y s m with
    | false => right; simp
    | true => left; simp

/-- The counter after one verification is the old counter plus the number of
positions recorded. -/
theorem verify_count_hit (x y : Mem) (m : Int) (guard : Bool) (s own count : Int) :
    (verify x y m guard s own count).2.1 = count + (verifyHit x y m guard s).length := by
  unfold verify verifyHit
  split_ifs <;> simp

/-- The four verifications: the counter grows by the number of positions
recorded, and each cursor either records its position under its guard and
moves its marker there, or records nothing and keeps its marker. -/
theorem verifyAll_spec (x y : Mem) (m : Int) (c : Cursors) :
    ∃ h1 h2 h3 h4 : List Int, verifyAllHits x y m c = h1 ++ h2 ++ h3 ++ h4 ∧
      (verifyAll x y m c).count = c.count + (verifyAllHits x y m c).length ∧
      ((h1 = [c.s1] ∧ c.s1 < c.l2 ∧ memcmpEq x y c.s1 m = true ∧ (verifyAll x y m c).l1 = c.s1) ∨
        (h1 = [] ∧ (verifyAll x y m c).l1 = c.l1)) ∧
      ((h2 = [c.s2] ∧ (verifyAll x y m c).l1 < c.s2 ∧ memcmpEq x y c.s2 m = true ∧
          (verifyAll x y m c).l2 = c.s2) ∨
        (h2 = [] ∧ (verifyAll x y m c).l2 = c.l2)) ∧
      ((h3 = [c.s3] ∧ c.s3 < c.l4 ∧ memcmpEq x y c.s3 m = true ∧ (verifyAll x y m c).l3 = c.s3) ∨
        (h3 = [] ∧ (verifyAll x y m c).l3 = c.l3)) ∧
      ((h4 = [c.s4] ∧ (verifyAll x y m c).l3 < c.s4 ∧ memcmpEq x y c.s4 m = true ∧
          (verifyAll x y m c).l4 = c.s4) ∨
        (h4 = [] ∧ (verifyAll x y m c).l4 = c.l4)) := by
  refine ⟨verifyHit x y m (decide (c.s1 < c.l2)) c.s1,
    verifyHit x y m (decide (c.s2 > (verifyAll x y m c).l1)) c.s2,
    verifyHit x y m (decide (c.s3 < c.l4)) c.s3,
    verifyHit x y m (decide (c.s4 > (verifyAll x y m c).l3)) c.s4, ?_, ?_, ?_, ?_, ?_, ?_⟩
  · rfl
  · have e4 : verifyAllHits x y m c = verifyHit x y m (decide (c.s1 < c.l2)) c.s1 ++
        verifyHit x y m (decide (c.s2 > (verifyAll x y m c).l1)) c.s2 ++
        verifyHit x y m (decide (c.s3 < c.l4)) c.s3 ++
        verifyHit x y m (decide (c.s4 > (verifyAll x y m c).l3)) c.s4 := by
      rfl
    rw [e4]
    show (verify x y m (decide (c.s4 > (verifyAll x y m c).l3)) c.s4 c.l4
      (verify x y m (decide (c.s3 < c.l4)) c.s3 c.l3
        (verify x y m (decide (c.s2 > (verifyAll x y m c).l1)) c.s2 c.l2
          (verify x y m (decide (c.s1 < c.l2)) c.s1 c.l1 c.count).2.1).2.1).2.1).2.1 = _
    rw [verify_count_hit, verify_count_hit, verify_count_hit, verify_count_hit]
    simp only [List.length_append]
    push_cast
    ring
  · rcases verify_cases x y m (decide (c.s1 < c.l2)) c.s1 c.l1 c.count with
      ⟨g, e, a, -, b⟩ | ⟨a, -, b⟩
    · exact Or.inl ⟨b, by simpa using g, e, a⟩
    · exact Or.inr ⟨b, a⟩
  · rcases verify_cases x y m (decide (c.s2 > (verifyAll x y m c).l1)) c.s2 c.l2
      (verify x y m (decide (c.s1 < c.l2)) c.s1 c.l1 c.count).2.1 with
      ⟨g, e, a, -, b⟩ | ⟨a, -, b⟩
    · exact Or.inl ⟨b, by simpa using g, e, a⟩
    · exact Or.inr ⟨b, a⟩
  · rcases verify_cases x y m (decide (c.s3 < c.l4)) c.s3 c.l3
      (verify x y m (decide (c.s2 > (verifyAll x y m c).l1)) c.s2 c.l2
        (verify x y m (decide (c.s1 < c.l2)) c.s1 c.l1 c.count).2.1).2.1 with
      ⟨g, e, a, -, b⟩ | ⟨a, -, b⟩
    · exact Or.inl ⟨b, by simpa using g, e, a⟩
    · exact Or.inr ⟨b, a⟩
  · rcases verify_cases x y m (decide (c.s4 > (verifyAll x y m c).l3)) c.s4 c.l4
      (verify x y m (decide (c.s3 < c.l4)) c.s3 c.l3
        (verify x y m (decide (c.s2 > (verifyAll x y m c).l1)) c.s2 c.l2
          (verify x y m (decide (c.s1 < c.l2)) c.s1 c.l1 c.count).2.1).2.1).2.1 with
      ⟨g, e, a, -, b⟩ | ⟨a, -, b⟩
    · exact Or.inl ⟨b, by simpa using g, e, a⟩
    · exact Or.inr ⟨b, a⟩

/-- The loop body up to the shifts: the counter grows by the number of
positions recorded, and each cursor either records its position under its guard
and moves its marker there, or records nothing and keeps its marker. -/
theorem gate_spec (x y : Mem) (m : Int) (c : Cursors) :
    ∃ h1 h2 h3 h4 : List Int, gateHits x y m c = h1 ++ h2 ++ h3 ++ h4 ∧
      (gate x y m c).count = c.count + (gateHits x y m c).length ∧
      ((h1 = [c.s1] ∧ c.s1 < c.l2 ∧ memcmpEq x y c.s1 m = true ∧ (gate x y m c).l1 = c.s1) ∨
        (h1 = [] ∧ (gate x y m c).l1 = c.l1)) ∧
      ((h2 = [c.s2] ∧ (gate x y m c).l1 < c.s2 ∧ memcmpEq x y c.s2 m = true ∧
          (gate x y m c).l2 = c.s2) ∨
        (h2 = [] ∧ (gate x y m c).l2 = c.l2)) ∧
      ((h3 = [c.s3] ∧ c.s3 < c.l4 ∧ memcmpEq x y c.s3 m = true ∧ (gate x y m c).l3 = c.s3) ∨
        (h3 = [] ∧ (gate x y m c).l3 = c.l3)) ∧
      ((h4 = [c.s4] ∧ (gate x y m c).l3 < c.s4 ∧ memcmpEq x y c.s4 m = true ∧
          (gate x y m c).l4 = c.s4) ∨
        (h4 = [] ∧ (gate x y m c).l4 = c.l4)) := by
  unfold gate gateHits
  simp only
  split_ifs
  · exact verifyAll_spec x y m _
  · exact ⟨[], [], [], [], rfl, by simp, Or.inr ⟨rfl, rfl⟩, Or.inr ⟨rfl, rfl⟩,
      Or.inr ⟨rfl, rfl⟩, Or.inr ⟨rfl, rfl⟩⟩
  · exact ⟨[], [], [], [], rfl, by simp, Or.inr ⟨rfl, rfl⟩, Or.inr ⟨rfl, rfl⟩,
      Or.inr ⟨rfl, rfl⟩, Or.inr ⟨rfl, rfl⟩⟩

/-- The shifts leave the markers and the counter of the gated part. -/
theorem step_markers (BrBcR BrBcL : Table) (x y : Mem) (m : Int) (c : Cursors) :
    (step BrBcR BrBcL x y m c).l1 = (gate x y m c).l1 ∧
    (step BrBcR BrBcL x y m c).l2 = (gate x y m c).l2 ∧
    (step BrBcR BrBcL x y m c).l3 = (gate x y m c).l3 ∧
    (step BrBcR BrBcL x y m c).l4 = (gate x y m c).l4 ∧
    (step BrBcR BrBcL x y m c).count = (gate x y m c).count :=
  ⟨rfl, rfl, rfl, rfl, rfl⟩

end tvsbs

namespace tvsbs

/-- One iteration keeps the marker bounds, records positions that are new, in
range and true occurrences, and leaves every recorded position behind the
cursors. -/
theorem step_hits (BrBcR BrBcL : Table) (x y : Mem) (m q B E : Int)
    (hR : ∀ i j, 1 ≤ BrBcR (y i) (y j)) (hL : ∀ i j, 1 ≤ BrBcL (y i) (y j))
    (hq : 0 ≤ q) (hB : B < q) (hBE : B ≤ E) (c : Cursors) (H : List Int)
    (hinv : laneInv q B E c) (hnd : H.Nodup)
    (hH : ∀ p ∈ H, hitPlace q c p ∧ 0 ≤ p ∧ p ≤ E ∧ memcmpEq x y p m = true) :
    laneInv q B E (step BrBcR BrBcL x y m c) ∧ (H ++ gateHits x y m c).Nodup ∧
      ∀ p ∈ H ++ gateHits x y m c,
        hitPlace q (step BrBcR BrBcL x y m c) p ∧ 0 ≤ p ∧ p ≤ E ∧ memcmpEq x y p m = true := by
  obtain ⟨h1, h2, h3, h4, hg, -, c1, c2, c3, c4⟩ := gate_spec x y m c
  obtain ⟨e1, e2, e3, e4, -⟩ := step_cursors BrBcR BrBcL x y m c
  obtain ⟨f1, f2, f3, f4, -⟩ := step_markers BrBcR BrBcL x y m c
  have r1 := hR (c.s1 + m) (c.s1 + (m + 1))
  have r3 := hR (c.s3 + m) (c.s3 + (m + 1))
  have r2 := hL (c.s2 - 1) (c.s2 - 2)
  have r4 := hL (c.s4 - 1) (c.s4 - 2)
  unfold laneInv at hinv ⊢
  have hocc : ∀ p ∈ gateHits x y m c, memcmpEq x y p m = true := by
    intro p hp
    rw [hg] at hp
    simp only [List.mem_append] at hp
    rcases hp with ((hp | hp) | hp) | hp
    · rcases c1 with ⟨e, -, hm, -⟩ | ⟨e, -⟩
      · rw [e, List.mem_singleton] at hp; rw [hp]; exact hm
      · rw [e] at hp; cases hp
    · rcases c2 with ⟨e, -, hm, -⟩ | ⟨e, -⟩
      · rw [e, List.mem_singleton] at hp; rw [hp]; exact hm
      · rw [e] at hp; cases hp
    · rcases c3 with ⟨e, -, hm, -⟩ | ⟨e, -⟩
      · rw [e, List.mem_singleton] at hp; rw [hp]; exact hm
      · rw [e] at hp; cases hp
    · rcases c4 with ⟨e, -, hm, -⟩ | ⟨e, -⟩
      · rw [e, List.mem_singleton] at hp; rw [hp]; exact hm
      · rw [e] at hp; cases hp
  have hplace : ∀ p ∈ H, hitPlace q c p ∧ 0 ≤ p ∧ p ≤ E := fun p hp =>
    ⟨(hH p hp).1, (hH p hp).2.1, (hH p hp).2.2.1⟩
  rw [f1, f2, f3, f4, e1, e2, e3, e4]
  have key : (c.l1 ≤ (gate x y m c).l1 ∧ (gate x y m c).l1 ≤ c.s1 ∧
      (gate x y m c).l2 ≤ c.l2 ∧ c.s2 ≤ (gate x y m c).l2 ∧
      c.l3 ≤ (gate x y m c).l3 ∧ (gate x y m c).l3 ≤ c.s3 ∧
      (gate x y m c).l4 ≤ c.l4 ∧ c.s4 ≤ (gate x y m c).l4) ∧
      (h1 ++ h2 ++ h3 ++ h4).Pairwise (fun a b => a < b) ∧
      ∀ p ∈ h1 ++ h2 ++ h3 ++ h4,
        (p = c.s1 ∧ c.s1 < c.l2 ∧ (gate x y m c).l1 = c.s1) ∨
        (p = c.s2 ∧ (gate x y m c).l1 < c.s2 ∧ (gate x y m c).l2 = c.s2) ∨
        (p = c.s3 ∧ c.s3 < c.l4 ∧ (gate x y m c).l3 = c.s3) ∨
        (p = c.s4 ∧ (gate x y m c).l3 < c.s4 ∧ (gate x y m c).l4 = c.s4) := by
    rcases c1 with ⟨a1, g1, -, l1⟩ | ⟨a1, l1⟩ <;>
    rcases c2 with ⟨a2, g2, -, l2⟩ | ⟨a2, l2⟩ <;>
    rcases c3 with ⟨a3, g3, -, l3⟩ | ⟨a3, l3⟩ <;>
    rcases c4 with ⟨a4, g4, -, l4⟩ | ⟨a4, l4⟩ <;>
    (subst a1 a2 a3 a4
     simp only [List.nil_append, List.append_nil, List.cons_append, List.pairwise_cons,
       List.mem_cons, List.not_mem_nil, List.Pairwise.nil, or_false, false_or,
       forall_eq_or_imp, forall_eq, false_implies, implies_true, and_true, true_and]
     omega)
  obtain ⟨⟨k1, k2, k3, k4, k5, k6, k7, k8⟩, kp, km⟩ := key
  rw [← hg] at kp km
  refine ⟨by omega, ?_, ?_⟩
  · rw [List.nodup_append]
    refine ⟨hnd, kp.imp (fun h => ne_of_lt h), ?_⟩
    intro p hp hp2
    have h := hplace p hp
    have h2 := km p hp2
    unfold hitPlace at h
    omega
  · intro p hp
    rcases List.mem_append.1 hp with hp | hp
    · have h := hplace p hp
      refine ⟨?_, h.2.1, h.2.2, (hH p hp).2.2.2⟩
      unfold hitPlace at h ⊢
      simp only [f1, f2, f3, f4, e1, e2, e3, e4]
      omega
    · have h2 := km p hp
      refine ⟨?_, ?_, ?_, hocc p hp⟩
      · unfold hitPlace
        simp only [f1, f2, f3, f4, e1, e2, e3, e4]
        omega
      · omega
      · omega

end tvsbs

namespace tvsbs

/-- The main loop and its record of counted positions run in lockstep: the
counter grows by the number of positions recorded, which are pairwise distinct,
distinct from those recorded before, in range and true occurrences. -/
theorem mainLoop_hits (BrBcR BrBcL : Table) (x y : Mem) (m q B E : Int)
    (hR : ∀ i j, 1 ≤ BrBcR (y i) (y j)) (hL : ∀ i j, 1 ≤ BrBcL (y i) (y j))
    (hq : 0 ≤ q) (hB : B < q) (hBE : B ≤ E) (fuel : Nat) :
    ∀ (c c1 : Cursors) (H : List Int), laneInv q B E c → H.Nodup →
      (∀ p ∈ H, hitPlace q c p ∧ 0 ≤ p ∧ p ≤ E ∧ memcmpEq x y p m = true) →
      mainLoop BrBcR BrBcL x y m fuel c = some c1 →
      ∃ hs, mainLoopHits BrBcR BrBcL x y m fuel c = some hs ∧
        c1.count = c.count + hs.length ∧ (H ++ hs).Nodup ∧
        ∀ p ∈ H ++ hs, 0 ≤ p ∧ p ≤ E ∧ memcmpEq x y p m = true := by
  induction fuel with
  | zero =>
    intro c c1 H _ hnd hH h
    unfold mainLoop at h
    unfold mainLoopHits
    split_ifs at h ⊢ with hc
    cases h
    refine ⟨[], rfl, by simp, by simpa using hnd, ?_⟩
    intro p hp
    rw [List.append_nil] at hp
    exact (hH p hp).2
  | succ f ih =>
    intro c c1 H hinv hnd hH h
    unfold mainLoop at h
    unfold mainLoopHits
    split_ifs at h ⊢ with hc
    · obtain ⟨i1, i2, i3⟩ := step_hits BrBcR BrBcL x y m q B E hR hL hq hB hBE c H hinv hnd hH
      obtain ⟨hs, k1, k2, k3, k4⟩ := ih _ c1 _ i1 i2 i3 h
      refine ⟨gateHits x y m c ++ hs, by rw [k1]; rfl, ?_, ?_, ?_⟩
      · rw [k2, (step_markers BrBcR BrBcL x y m c).2.2.2.2]
        have hcnt : (gate x y m c).count = c.count + (gateHits x y m c).length := by
          obtain ⟨_, _, _, _, _, hc2, _⟩ := gate_spec x y m c
          exact hc2
        rw [hcnt, List.length_append]
        push_cast
        ring
      · rw [← List.append_assoc]; exact k3
      · rw [← List.append_assoc]; exact k4
    · cases h
      refine ⟨[], rfl, by simp, by simpa using hnd, ?_⟩
      intro p hp
      rw [List.append_nil] at hp
      exact (hH p hp).2

/-- Pairwise distinct true occurrences in `[0, n - m]` are at most as many as
the naive scan counts. -/
theorem length_le_naiveCount (x : Mem) (m : Int) (y : Mem) (n : Int) (hits : List Int)
    (hnd : hits.Nodup)
    (hocc : ∀ p ∈ hits, 0 ≤ p ∧ p ≤ n - m ∧ ∀ i : Int, 0 ≤ i → i < m → y (p + i) = x i) :
    hits.length ≤ naiveCount x m y n := by
  unfold naiveCount
  apply List.Subperm.length_le
  apply List.subperm_of_subset hnd
  intro p hp
  obtain ⟨h0, h1, h2⟩ := hocc p hp
  rw [List.mem_filter]
  constructor
  · simp only [List.bind_eq_flatMap, List.mem_flatMap, List.mem_range, List.pure_def,
      List.mem_singleton]
    exact ⟨p.toNat, by omega, by omega⟩
  · rw [List.all_eq_true]
    intro i hi
    have := List.mem_range.1 hi
    simpa using h2 i (by omega) (by omega)

end tvsbs

namespace tvsbs

/-- Claim C22: for every applicable input (`m ≥ 2`, `n ≥ m + 2`, bytes below
`SIGMA`) `search` returns, and its result is the number of cursor positions at
which `count` is incremented; these positions are pairwise distinct over the
four cursors and all iterations, each lies in `[0, n - m]` and the pattern
occurs in the text at each, so the result is at most the naive occurrence
count. -/
theorem search_never_overcounts (SIGMA : Nat) (x y : Mem) (m n : Int)
    (hx : ∀ i, x i < SIGMA) (hy : ∀ i, y i < SIGMA) (hm : 2 ≤ m) (hn : m + 2 ≤ n) :
    ∃ r hits, search SIGMA x m y n = some r ∧ searchHits SIGMA x m y n = some hits ∧
      r.ret = hits.length ∧ hits.Nodup ∧
      (∀ p ∈ hits, 0 ≤ p ∧ p ≤ n - m ∧ ∀ i : Int, 0 ≤ i → i < m → y (p + i) = x i) ∧
      r.ret ≤ naiveCount x m y n := by
  obtain ⟨c1, hc1, -, hs⟩ := search_applicable SIGMA x y m n hx hy hm hn
  have hb := sentinels_bytes SIGMA x m y n hx hy
  have hq : Int.tdiv n 2 = n / 2 := Int.tdiv_eq_ediv (by omega) (by omega)
  obtain ⟨hits, k1, k2, k3, k4⟩ := mainLoop_hits
    (TVSBSpreBrBc SIGMA x m (fun _ _ => 0))
    (TVSBSpreBrBc SIGMA (reversed x m) m (fun _ _ => 0)) x (sentinels x m y n) m
    (Int.tdiv n 2) (if Int.tdiv n 2 - 1 > n - m then n - m else Int.tdiv n 2 - 1) (n - m)
    (fun i j => (TVSBSpreBrBc_cell_range SIGMA x m _ hm _ _ (hb i) (hb j)).1)
    (fun i j => (TVSBSpreBrBc_cell_range SIGMA (reversed x m) m _ hm _ _ (hb i) (hb j)).1)
    (by omega) (by split_ifs <;> omega) (by split_ifs <;> omega) n.toNat _ c1 []
    (by unfold laneInv; simp only [hq]; split_ifs <;> omega) List.nodup_nil
    (by intro p hp; cases hp) hc1
  rw [List.nil_append] at k3 k4
  have hocc : ∀ p ∈ hits, 0 ≤ p ∧ p ≤ n - m ∧ ∀ i : Int, 0 ≤ i → i < m → y (p + i) = x i := by
    intro p hp
    obtain ⟨h0, h1, h2⟩ := k4 p hp
    refine ⟨h0, h1, ?_⟩
    intro i hi0 hi1
    have e := (memcmpEq_iff x (sentinels x m y n) p m).1 h2 i hi0 hi1
    rw [sentinels_apply x m y n (by omega), if_neg (by omega), if_neg (by omega)] at e
    exact e.symm
  have hret : c1.count = (hits.length : Int) := by
    rw [k2]
    simp
  refine ⟨_, hits, hs, ?_, hret, k3, hocc, ?_⟩
  · unfold searchHits
    rw [if_neg (by omega), if_neg (by omega)]
    exact k1
  · show c1.count ≤ _
    rw [hret]
    exact_mod_cast length_le_naiveCount x m y n hits k3 hocc

theorem search_never_overcounts_witness :
    (∀ i, memOf [0, 1] 0 i < 2) ∧ (∀ i, memOf [0, 1, 0, 1, 0, 1] 0 i < 2) ∧
    (2 : Int) ≤ 2 ∧ (2 : Int) + 2 ≤ 6 ∧
    ∃ r hits, search 2 (memOf [0, 1] 0) 2 (memOf [0, 1, 0, 1, 0, 1] 0) 6 = some r ∧
      searchHits 2 (memOf [0, 1] 0) 2 (memOf [0, 1, 0, 1, 0, 1] 0) 6 = some hits ∧
      r.ret = hits.length ∧ hits.Nodup ∧
      (∀ p ∈ hits, 0 ≤ p ∧ p ≤ 6 - 2 ∧
        ∀ i : Int, 0 ≤ i → i < 2 → memOf [0, 1, 0, 1, 0, 1] 0 (p + i) = memOf [0, 1] 0 i) ∧
      r.ret ≤ naiveCount (memOf [0, 1] 0) 2 (memOf [0, 1, 0, 1, 0, 1] 0) 6 :=
  ⟨memOf_lt _ _ _ (by decide) (by decide), memOf_lt _ _ _ (by decide) (by decide),
    by decide, by decide,
    search_never_overcounts 2 (memOf [0, 1] 0) (memOf [0, 1, 0, 1, 0, 1] 0) 2 6
      (memOf_lt _ _ _ (by decide) (by decide)) (memOf_lt _ _ _ (by decide) (by decide))
      (by decide) (by decide)⟩

end tvsbs
